import Mathlib

/-!
# Verification of the syster-diagram-ui layout pipeline

Shallow embedding of the layout pipeline of the `diagram-ui` library:

* `src/types.ts` — input data model and view-config filters,
* `src/layout/general-view.ts` — `GeneralViewLayout` (classification,
  content aggregation, node and edge building),
* `src/layout/sizing.ts` — `NODE_SIZING`, `calculateContentHeight`,
  `calculateNodeSize`, `calculateElkTopPadding`,
* `src/layout/elk-layout.ts` — the ELK request builder (`buildElkNode`),
* `src/views/layoutUtils.ts` — `buildGraph`, `calculateLevels`,
  `applyLevelLayout`, `applyGridLayout`.

JavaScript `Map` objects are embedded as association lists (only `get`,
`has` and `set`/`push` are used by the source, so iteration order of the
maps is irrelevant except for `Map.values`, which is only consumed by
`Math.max`).  JavaScript numbers are embedded as `Nat` where the source
only adds, multiplies and takes `max` of small integers, and as `Rat`
where the source divides (`totalWidth / 2`); both are exact for the
values involved.  The external ELK engine call (`applyElkLayout` step 4
of `GeneralViewLayout.apply`) only repositions nodes and is an external
collaborator, so the built graph is verified as of steps 1–3.
-/

/-! ## String utilities

The source uses `String.prototype.includes`, `replace(/::/g, '_')` and
`split('::').pop()`.  They are embedded on character lists.
-/

/-- Does the second list start with the first one (pattern first)? -/
def startsWithChars : List Char → List Char → Bool
  | [], _ => true
  | _ :: _, [] => false
  | p :: ps, c :: cs => p = c && startsWithChars ps cs

/-- Does the list contain the pattern as a contiguous substring?
Embeds JavaScript `String.prototype.includes`. -/
def containsChars (pat : List Char) : List Char → Bool
  | [] => startsWithChars pat []
  | c :: cs => startsWithChars pat (c :: cs) || containsChars pat cs

/-- `strContains s pat` embeds `s.includes(pat)`. -/
def strContains (s pat : String) : Bool :=
  containsChars pat.data s.data

/-- Embeds `qualifiedName.replace(/::/g, '_')` on character lists: scan left
to right, turning each non-overlapping `::` into `_`. -/
def toNodeIdChars : List Char → List Char
  | [] => []
  | [c] => [c]
  | c1 :: c2 :: rest =>
    if c1 = ':' ∧ c2 = ':' then '_' :: toNodeIdChars rest
    else c1 :: toNodeIdChars (c2 :: rest)

/-- `GeneralViewLayout.toNodeId`: `qualifiedName.replace(/::/g, '_')`. -/
def toNodeId (qualifiedName : String) : String :=
  ⟨toNodeIdChars qualifiedName.data⟩

/-- Inverse of `toNodeIdChars` on inputs that contain no `_`:
replace each `_` by `::`. -/
def fromNodeIdChars : List Char → List Char
  | [] => []
  | c :: rest =>
    if c = '_' then ':' :: ':' :: fromNodeIdChars rest
    else c :: fromNodeIdChars rest

/-- Embeds `typedBy.split('::').pop()`: the text after the final `::`
(scanning the separators left to right, as `String.prototype.split` does). -/
def lastSegChars (acc : List Char) : List Char → List Char
  | [] => acc
  | [c] => acc ++ [c]
  | c1 :: c2 :: rest =>
    if c1 = ':' ∧ c2 = ':' then lastSegChars [] rest
    else lastSegChars (acc ++ [c1]) (c2 :: rest)

/-- `lastSegment ty` embeds `ty.split('::').pop()`. -/
def lastSegment (ty : String) : String :=
  ⟨lastSegChars [] ty.data⟩

/-- Lower-casing used by `groupFeatureCounts` (`f.toLowerCase()`). -/
def strToLower (s : String) : String :=
  ⟨s.data.map Char.toLower⟩

/-! ## Data model (`src/types.ts`) -/

/-- `DiagramSymbol` of `src/types.ts`.  Optional fields are `Option`s; the
JavaScript truthiness tests `if (symbol.parent)`, `if (symbol.typedBy)`,
`if (symbol.direction)` also treat the empty string as absent, which the
embedding reproduces at each use site. -/
structure DiagramSymbol where
  name : String
  qualifiedName : String
  nodeType : String
  parent : Option String
  features : Option (List String)
  typedBy : Option String
  direction : Option String
deriving DecidableEq, Repr

/-- `DiagramRelationship` of `src/types.ts`. -/
structure DiagramRelationship where
  type : String
  source : String
  target : String
  label : Option String
  multiplicity : Option String
deriving DecidableEq, Repr

/-- `ViewConfig` of `src/types.ts`. -/
structure ViewConfig where
  type : String
  direction : Option String
  includeNodeTypes : Option (List String)
  includeEdgeTypes : Option (List String)
  showNesting : Option Bool
deriving DecidableEq, Repr

/-- `shouldShowNodeType` of `src/types.ts`: show iff the allow-list is
absent or empty or contains the type. -/
def shouldShowNodeType (nodeType : String) (config : ViewConfig) : Bool :=
  match config.includeNodeTypes with
  | none => true
  | some l => if l.isEmpty then true else decide (nodeType ∈ l)

/-- `shouldShowEdgeType` of `src/types.ts`: show iff the allow-list is
absent or empty or contains the type. -/
def shouldShowEdgeType (edgeType : String) (config : ViewConfig) : Bool :=
  match config.includeEdgeTypes with
  | none => true
  | some l => if l.isEmpty then true else decide (edgeType ∈ l)

/-! ## Sizing (`src/layout/sizing.ts`) -/

namespace NODE_SIZING

def headerHeight : Nat := 60
def sectionHeaderHeight : Nat := 24
def itemHeight : Nat := 26
def bottomPadding : Nat := 20
def childGap : Nat := 20
def minHeight : Nat := 90
def minContainerHeight : Nat := 200
def defaultWidth : Nat := 200
def minContainerWidth : Nat := 300

end NODE_SIZING

/-- `groupFeatureCounts` of `src/layout/sizing.ts`: counts
`(parts, attrs, actions)` by the keyword heuristic over each feature line. -/
def groupFeatureCounts (features : List String) : Nat × Nat × Nat :=
  features.foldl
    (fun acc f =>
      let lower := strToLower f
      if strContains lower "action" || strContains lower ":action" then
        (acc.1, acc.2.1, acc.2.2 + 1)
      else if strContains lower "attribute" || strContains lower "attr"
          || !(strContains f ":") then
        (acc.1, acc.2.1 + 1, acc.2.2)
      else
        (acc.1 + 1, acc.2.1, acc.2.2))
    (0, 0, 0)

/-- `calculateContentHeight` of `src/layout/sizing.ts`. -/
def calculateContentHeight (features : List String) : Nat :=
  let counts := groupFeatureCounts features
  let featureCount := features.length
  if featureCount = 0 then
    NODE_SIZING.headerHeight + 10
  else
    let sectionCount := (if counts.1 > 0 then 1 else 0)
      + (if counts.2.1 > 0 then 1 else 0) + (if counts.2.2 > 0 then 1 else 0)
    NODE_SIZING.headerHeight + (sectionCount * NODE_SIZING.sectionHeaderHeight
      + featureCount * NODE_SIZING.itemHeight + NODE_SIZING.bottomPadding)

/-- `calculateNodeSize` of `src/layout/sizing.ts`, as a `(width, height)`
pair. -/
def calculateNodeSize (features : List String) (isContainer : Bool) : Nat × Nat :=
  let contentHeight := calculateContentHeight features
  if isContainer then
    (NODE_SIZING.minContainerWidth, max NODE_SIZING.minContainerHeight (contentHeight + 60))
  else
    (NODE_SIZING.defaultWidth, max NODE_SIZING.minHeight contentHeight)

/-- `calculateElkTopPadding` of `src/layout/sizing.ts`. -/
def calculateElkTopPadding (features : List String) : Nat :=
  calculateContentHeight features + NODE_SIZING.childGap

/-! ## `GeneralViewLayout` (`src/layout/general-view.ts`) -/

/-- Node categories of `general-view.ts`. -/
inductive NodeCategory
  | structural
  | property
  | port
deriving DecidableEq, Repr

/-- `getNodeCategory` of `general-view.ts`: a type whose tag contains
`Port` is a port; a fixed set of attribute-like tags is a property;
everything else is structural. -/
def getNodeCategory (nodeType : String) : NodeCategory :=
  if strContains nodeType "Port" then .port
  else if decide (nodeType ∈ ["AttributeUsage", "AttributeDef", "ReferenceUsage", "Feature"]) then
    .property
  else .structural

/-- The display-text formatting of `GeneralViewLayout.apply` for property
and port symbols: `"direction name : Type"` with the direction and typed-by
parts present only when the corresponding (truthy) field is present. -/
def memberText (symbol : DiagramSymbol) : String :=
  let text := symbol.name
  let text :=
    match symbol.direction with
    | some d => if d = "" then text else d ++ " " ++ text
    | none => text
  match symbol.typedBy with
  | some ty => if ty = "" then text else text ++ " : " ++ lastSegment ty
  | none => text

/-- Association-list embedding of the `Map<string, string[]>` aggregation
maps of `GeneralViewLayout.apply` (only `get`, `has` and push are used). -/
def alGet : List (String × List String) → String → Option (List String)
  | [], _ => none
  | (k0, v0) :: rest, k => if k0 = k then some v0 else alGet rest k

/-- `if (!map.has(k)) map.set(k, []); map.get(k)!.push(v)`. -/
def alPush : List (String × List String) → String → String → List (String × List String)
  | [], k, v => [(k, [v])]
  | (k0, v0) :: rest, k, v =>
    if k0 = k then (k0, v0 ++ [v]) :: rest else (k0, v0) :: alPush rest k v

/-- Accumulator of the step-1 loop of `GeneralViewLayout.apply`:
structural symbols kept in order, plus the two per-parent aggregation
maps. -/
structure ClassifyAcc where
  structural : List DiagramSymbol
  props : List (String × List String)
  ports : List (String × List String)
deriving Repr

/-- One iteration of the step-1 loop of `GeneralViewLayout.apply`. -/
def classifyStep (config : ViewConfig) (acc : ClassifyAcc) (symbol : DiagramSymbol) :
    ClassifyAcc :=
  if shouldShowNodeType symbol.nodeType config then
    match getNodeCategory symbol.nodeType with
    | .structural => { acc with structural := acc.structural ++ [symbol] }
    | .port =>
      match symbol.parent with
      | some p =>
        if p = "" then acc
        else { acc with ports := alPush acc.ports p (memberText symbol) }
      | none => acc
    | .property =>
      match symbol.parent with
      | some p =>
        if p = "" then acc
        else { acc with props := alPush acc.props p (memberText symbol) }
      | none => acc
  else acc

/-- Step 1 of `GeneralViewLayout.apply`: separate structural symbols from
properties and ports, aggregating the latter by parent. -/
def classifySymbols (symbols : List DiagramSymbol) (config : ViewConfig) : ClassifyAcc :=
  symbols.foldl (classifyStep config) ⟨[], [], []⟩

/-- The `data` payload of a built React Flow node. -/
structure LayoutNodeData where
  name : String
  qualifiedName : String
  features : Option (List String)
  typedBy : Option String
  direction : Option String
deriving DecidableEq, Repr

/-- A planar position; coordinates are rationals because
`applyLevelLayout` divides by 2 (exact for the values the source
computes). -/
structure XY where
  x : Rat
  y : Rat
deriving DecidableEq, Repr

/-- A built React Flow node, with its `style` width/height inlined as the
`width`/`height` fields and `extent: 'parent'` as the Boolean
`extentParent`. -/
structure RFNode where
  id : String
  type : String
  position : XY
  data : LayoutNodeData
  width : Nat
  height : Nat
  parentId : Option String
  extentParent : Bool
deriving DecidableEq, Repr

/-- A built React Flow edge (the built label always equals the type). -/
structure RFEdge where
  id : String
  source : String
  target : String
  type : String
  label : String
deriving DecidableEq, Repr

/-- The merged content computation of `GeneralViewLayout.buildNodes`:
`[...properties, ...(ports.length > 0 ? ['---', ...ports] : []),
...(symbol.features || [])].filter(f => f)` (the filter drops empty
strings, which are falsy). -/
def mergeContent (properties ports features : List String) : List String :=
  (properties ++ (if ports = [] then [] else "---" :: ports) ++ features).filter
    (fun f => decide (f ≠ ""))

/-- The node built for one structural symbol by
`GeneralViewLayout.buildNodes`.  `validTypes` stands for the
`VALID_NODE_TYPES` set imported from `@opensyster/diagram-core` (an
external package), over which the development is parameterized. -/
def buildNode (validTypes : List String) (nodeIds hasChildren : List String)
    (props ports : List (String × List String)) (symbol : DiagramSymbol) : RFNode :=
  let id := toNodeId symbol.qualifiedName
  let parentId := symbol.parent.bind (fun p => if p = "" then none else some (toNodeId p))
  let nodeType := if decide (symbol.nodeType ∈ validTypes) then symbol.nodeType else "default"
  let qn := symbol.qualifiedName
  let allFeatures := mergeContent ((alGet props qn).getD []) ((alGet ports qn).getD [])
    (symbol.features.getD [])
  let isContainer := decide (id ∈ hasChildren)
  let size := calculateNodeSize allFeatures isContainer
  let linkedParent :=
    match parentId with
    | some p => if decide (p ∈ nodeIds) then some p else none
    | none => none
  { id := id
    type := nodeType
    position := ⟨0, 0⟩
    data :=
      { name := symbol.name
        qualifiedName := qn
        features := if allFeatures.length > 0 then some allFeatures else none
        typedBy := symbol.typedBy
        direction := symbol.direction }
    width := size.1
    height := size.2
    parentId := linkedParent
    extentParent := linkedParent.isSome }

/-- `GeneralViewLayout.buildNodes`: one node per structural symbol, with
merged content, computed size and parent linkage. -/
def buildNodes (validTypes : List String) (symbols : List DiagramSymbol)
    (props ports : List (String × List String)) : List RFNode :=
  let nodeIds := symbols.map (fun s => toNodeId s.qualifiedName)
  let hasChildren := (symbols.filterMap
    (fun s => s.parent.bind (fun p => if p = "" then none else some (toNodeId p))))
  symbols.map (buildNode validTypes nodeIds hasChildren props ports)

/-- The indexed loop of `GeneralViewLayout.buildEdges`: an edge `edge_i`
is pushed exactly when both encoded endpoints are ids of built nodes. -/
def buildEdgesAux (nodeIds : List String) : Nat → List DiagramRelationship → List RFEdge
  | _, [] => []
  | i, rel :: rest =>
    if decide (toNodeId rel.source ∈ nodeIds) && decide (toNodeId rel.target ∈ nodeIds) then
      ⟨"edge_" ++ toString i, toNodeId rel.source, toNodeId rel.target, rel.type, rel.type⟩
        :: buildEdgesAux nodeIds (i + 1) rest
    else buildEdgesAux nodeIds (i + 1) rest

/-- `GeneralViewLayout.buildEdges`. -/
def buildEdges (relationships : List DiagramRelationship) (nodes : List RFNode) : List RFEdge :=
  buildEdgesAux (nodes.map (fun n => n.id)) 0 relationships

/-- Steps 1–3 of `GeneralViewLayout.apply`: classify and aggregate, build
the nodes, filter the relationships by edge type and build the edges.
Step 4 (`applyElkLayout`) calls the external ELK engine, which only
rewrites node positions and sizes; the edge list is returned unchanged. -/
def generalViewBuild (validTypes : List String) (symbols : List DiagramSymbol)
    (relationships : List DiagramRelationship) (config : ViewConfig) :
    List RFNode × List RFEdge :=
  let acc := classifySymbols symbols config
  let nodes := buildNodes validTypes acc.structural acc.props acc.ports
  let filtered := relationships.filter (fun r => shouldShowEdgeType r.type config)
  (nodes, buildEdges filtered nodes)

/-! ## Layout utilities (`src/views/layoutUtils.ts`) -/

/-- `DiagramNode` of `@opensyster/diagram-core` as consumed by
`layoutUtils.ts`: an id, a position, and further payload fields that the
layout functions spread through unchanged. -/
structure DiagramNode where
  id : String
  type : String
  data : List (String × String)
  style : List (String × String)
  parentId : Option String
  position : XY
deriving DecidableEq, Repr

/-- `DiagramEdge` of `@opensyster/diagram-core` as consumed by
`layoutUtils.ts`. -/
structure DiagramEdge where
  id : String
  source : String
  target : String
  type : String
  label : Option String
deriving DecidableEq, Repr

/-- Layout direction flag (`'TB' | 'LR'`). -/
inductive LayoutDirection
  | TB
  | LR
deriving DecidableEq, Repr

/-- `LayoutOptions` of `layoutUtils.ts`; absent fields fall back to
`DEFAULT_OPTIONS` when merged. -/
structure LayoutOptions where
  nodeWidth : Option Rat
  nodeHeight : Option Rat
  horizontalGap : Option Rat
  verticalGap : Option Rat
  direction : Option LayoutDirection
deriving DecidableEq, Repr

/-- The empty options object `{}`. -/
def noOpts : LayoutOptions := ⟨none, none, none, none, none⟩

/-- Lookup in the `Map<string, number>` of levels (association-list
embedding). -/
def lget : List (String × Nat) → String → Option Nat
  | [], _ => none
  | (k0, v0) :: rest, k => if k0 = k then some v0 else lget rest k

/-- `Map.set` for the levels map: overwrite an existing key, else append. -/
def lset : List (String × Nat) → String → Nat → List (String × Nat)
  | [], k, v => [(k, v)]
  | (k0, v0) :: rest, k, v =>
    if k0 = k then (k0, v) :: rest else (k0, v0) :: lset rest k v

/-- `buildGraph` of `layoutUtils.ts`: outgoing adjacency list
(source to targets, in edge order). -/
def buildGraph (edges : List DiagramEdge) : List (String × List String) :=
  edges.foldl (fun graph edge => alPush graph edge.source edge.target) []

/-- `graph.get(id) ?? []`. -/
def adjOf (graph : List (String × List String)) (id : String) : List String :=
  (alGet graph id).getD []

/-- The inner `for (const neighbor of graph.get(id) ?? [])` loop of the
BFS in `calculateLevels`: unvisited neighbours are assigned
`level + 1` and appended to the queue. -/
def bfsVisit (level : Nat) (neighbors : List String)
    (state : List (String × Nat) × List (String × Nat)) :
    List (String × Nat) × List (String × Nat) :=
  neighbors.foldl
    (fun st nbr =>
      if (lget st.2 nbr).isSome then st
      else (st.1 ++ [(nbr, level + 1)], lset st.2 nbr (level + 1)))
    state

/-- The `while (queue.length > 0)` BFS loop of `calculateLevels`.  The
fuel argument only bounds the iteration count; `calculateLevels` passes
a fuel that is provably never exhausted (each iteration pops one entry
and entries are pushed at most once per distinct edge target), so the
embedding agrees with the unbounded loop of the source. -/
def bfsLoop (graph : List (String × List String)) :
    Nat → List (String × Nat) → List (String × Nat) → List (String × Nat)
  | 0, _, levels => levels
  | _ + 1, [], levels => levels
  | fuel + 1, (id, level) :: queue, levels =>
    let st := bfsVisit level (adjOf graph id) (queue, levels)
    bfsLoop graph fuel st.1 st.2

/-- `calculateLevels` of `layoutUtils.ts`: BFS levels from the start
nodes (the nodes with no incoming edge when `startNodeIds` is absent),
then assign every still-unvisited node the maximum observed level. -/
def calculateLevels (nodes : List DiagramNode) (edges : List DiagramEdge)
    (startNodeIds : Option (List String)) : List (String × Nat) :=
  let graph := buildGraph edges
  let hasIncoming := edges.map (fun e => e.target)
  let starts := startNodeIds.getD
    ((nodes.filter (fun n => decide (n.id ∉ hasIncoming))).map (fun n => n.id))
  let queue := starts.map (fun id => (id, 0))
  let levels0 := starts.foldl (fun m id => lset m id 0) []
  let levels := bfsLoop graph (starts.length + edges.length + 1) queue levels0
  let maxLevel := (levels.map (fun p => p.2)).foldl max 0
  nodes.foldl (fun m n => if (lget m n.id).isSome then m else lset m n.id maxLevel) levels

/-- Lookup in the `Map<number, DiagramNode[]>` of per-level groups. -/
def blGet : List (Nat × List DiagramNode) → Nat → Option (List DiagramNode)
  | [], _ => none
  | (k0, v0) :: rest, k => if k0 = k then some v0 else blGet rest k

/-- Push into the per-level groups map. -/
def blPush : List (Nat × List DiagramNode) → Nat → DiagramNode →
    List (Nat × List DiagramNode)
  | [], k, v => [(k, [v])]
  | (k0, v0) :: rest, k, v =>
    if k0 = k then (k0, v0 ++ [v]) :: rest else (k0, v0) :: blPush rest k v

/-- `levelNodes.indexOf(node)` (−1 when absent, as in JavaScript). -/
def idxOf (node : DiagramNode) (l : List DiagramNode) : Int :=
  match l.findIdx? (fun b => decide (b = node)) with
  | some i => (i : Int)
  | none => -1

/-- `applyLevelLayout` of `layoutUtils.ts`. -/
def applyLevelLayout (nodes : List DiagramNode) (edges : List DiagramEdge)
    (opts : LayoutOptions) : List DiagramNode :=
  let nodeWidth := opts.nodeWidth.getD 160
  let nodeHeight := opts.nodeHeight.getD 80
  let horizontalGap := opts.horizontalGap.getD 80
  let verticalGap := opts.verticalGap.getD 100
  let direction := opts.direction.getD .TB
  let levels := calculateLevels nodes edges none
  let byLevel := nodes.foldl (fun m n => blPush m ((lget levels n.id).getD 0) n) []
  nodes.map (fun node =>
    let level := (lget levels node.id).getD 0
    let levelNodes := (blGet byLevel level).getD []
    let index := idxOf node levelNodes
    let totalWidth := (levelNodes.length : Rat) * nodeWidth
      + ((levelNodes.length : Rat) - 1) * horizontalGap
    let x := (index : Rat) * (nodeWidth + horizontalGap) - totalWidth / 2 + 300
    let y := (level : Rat) * (nodeHeight + verticalGap) + 50
    { node with position := if direction = .TB then ⟨x, y⟩ else ⟨y, x⟩ })

/-- `Math.ceil(Math.sqrt(n))` for the natural list lengths the source
passes (exact for the double-precision arithmetic involved). -/
def ceilSqrt (n : Nat) : Nat :=
  if Nat.sqrt n * Nat.sqrt n = n then Nat.sqrt n else Nat.sqrt n + 1

/-- The indexed `nodes.map((node, i) => ...)` loop of `applyGridLayout`. -/
def gridAux (columns : Nat) (cellW cellH : Rat) : Nat → List DiagramNode → List DiagramNode
  | _, [] => []
  | i, node :: rest =>
    { node with position := ⟨((i % columns : Nat) : Rat) * cellW, ((i / columns : Nat) : Rat) * cellH⟩ }
      :: gridAux columns cellW cellH (i + 1) rest

/-- `applyGridLayout` of `layoutUtils.ts`: row-major grid with
`ceil(sqrt(n))` columns, no edge awareness. -/
def applyGridLayout (nodes : List DiagramNode) (opts : LayoutOptions) : List DiagramNode :=
  let nodeWidth := opts.nodeWidth.getD 160
  let nodeHeight := opts.nodeHeight.getD 80
  let horizontalGap := opts.horizontalGap.getD 80
  let verticalGap := opts.verticalGap.getD 100
  let columns := ceilSqrt nodes.length
  gridAux columns (nodeWidth + horizontalGap) (nodeHeight + verticalGap) 0 nodes

/-! ## ELK request builder (`src/layout/elk-layout.ts`)

Only the request-building side (`buildElkGraph` / `buildElkNode`) is part
of this library; the engine itself is an external collaborator.  The
`elk.padding` option string `[top=T,left=20,bottom=30,right=20]` of a
container node is embedded as the record `ElkPadding`; the remaining
layout-option strings are fixed literals irrelevant to the claims. -/

/-- The four padding values of the `elk.padding` layout option. -/
structure ElkPadding where
  top : Nat
  left : Nat
  bottom : Nat
  right : Nat
deriving DecidableEq, Repr

/-- An ELK request node: id, width, height, the container-only layout
sub-configuration (`none` for childless nodes), and the nested children. -/
inductive ElkNode where
  | mk : String → Nat → Nat → Option ElkPadding → List ElkNode → ElkNode
deriving Repr

def ElkNode.id : ElkNode → String
  | .mk i _ _ _ _ => i

def ElkNode.width : ElkNode → Nat
  | .mk _ w _ _ _ => w

def ElkNode.height : ElkNode → Nat
  | .mk _ _ h _ _ => h

def ElkNode.layoutOptions : ElkNode → Option ElkPadding
  | .mk _ _ _ o _ => o

def ElkNode.children : ElkNode → List ElkNode
  | .mk _ _ _ _ c => c

/-- `childrenMap.get(node.id) || []` of `buildElkGraph`: the nodes whose
`parentId` is this node's id, in input order. -/
def childrenOf (nodes : List RFNode) (id : String) : List RFNode :=
  nodes.filter (fun n => decide (n.parentId = some id))

/-- `buildElkNode` of `elk-layout.ts`.  In the pipeline the node style
always carries the computed width/height, so they are read from the
`width`/`height` fields.  The recursion is bounded by a fuel argument
(the source recurses on the `parentId` forest; `buildElkGraph` passes
`nodes.length + 1`, enough for any forest of that many nodes). -/
def buildElkNode (nodes : List RFNode) : Nat → RFNode → ElkNode
  | 0, node => .mk node.id node.width node.height none []
  | fuel + 1, node =>
    let children := childrenOf nodes node.id
    let topPadding := calculateElkTopPadding (node.data.features.getD [])
    if children.length > 0 then
      .mk node.id node.width node.height (some ⟨topPadding, 20, 30, 20⟩)
        (children.map (buildElkNode nodes fuel))
    else .mk node.id node.width node.height none []

/-- `buildElkGraph` of `elk-layout.ts`: the root-level ELK nodes and the
defensively re-filtered edges `(id, source, target)`. -/
def buildElkGraph (nodes : List RFNode) (edges : List RFEdge) :
    List ElkNode × List (String × String × String) :=
  let rootNodes := nodes.filter (fun n => decide (n.parentId = none))
  let elkChildren := rootNodes.map (buildElkNode nodes (nodes.length + 1))
  let nodeIds := nodes.map (fun n => n.id)
  let elkEdges := (edges.filter
      (fun e : RFEdge => decide (e.source ∈ nodeIds) && decide (e.target ∈ nodeIds))).map
    (fun e : RFEdge => (e.id, e.source, e.target))
  (elkChildren, elkEdges)

/-- `ElkDesc e d`: `d` is `e` itself or a node nested somewhere below `e`
in the built ELK request tree. -/
inductive ElkDesc : ElkNode → ElkNode → Prop
  | refl (e : ElkNode) : ElkDesc e e
  | child {e c d : ElkNode} : c ∈ e.children → ElkDesc c d → ElkDesc e d

/-! ## Specification-side graph distance

`distLe roots edges n v` holds when `v` is reachable from some root in at
most `n` edge hops, following edges from `source` to `target`.  This is
the declarative notion of breadth-first distance that `calculateLevels`
is claimed to compute; it is defined from the raw edge list, not from the
adjacency structure the code builds. -/

/-- One edge hop: some edge goes from `u` to `v`. -/
def stepE (edges : List DiagramEdge) (u v : String) : Prop :=
  ∃ e ∈ edges, e.source = u ∧ e.target = v

/-- Reachable from a root in at most `n` hops. -/
def distLe (roots : List String) (edges : List DiagramEdge) : Nat → String → Prop
  | 0, v => v ∈ roots
  | n + 1, v => distLe roots edges n v ∨ ∃ u, distLe roots edges n u ∧ stepE edges u v

/-- `k` is the shortest hop distance from the root set to `v`: attained,
and no smaller bound is. -/
def minDistIs (roots : List String) (edges : List DiagramEdge) (v : String) (k : Nat) : Prop :=
  distLe roots edges k v ∧ ∀ j, distLe roots edges j v → k ≤ j

/-- The start-node set `calculateLevels` derives when no explicit root
set is supplied: ids of nodes with no incoming edge. -/
def defaultRoots (nodes : List DiagramNode) (edges : List DiagramEdge) : List String :=
  (nodes.filter (fun n => decide (n.id ∉ edges.map (fun e => e.target)))).map (fun n => n.id)

/-! ## Sample data used by concrete instances and witnesses -/

/-- A `ViewConfig` with no filters (everything is shown). -/
def allConfig : ViewConfig := ⟨"GeneralView", none, none, none, none⟩

/-- A minimal diagram node for the layout utilities. -/
def dnode (id : String) : DiagramNode := ⟨id, "part", [], [], none, ⟨0, 0⟩⟩

/-- A minimal diagram edge for the layout utilities. -/
def dedge (id source target : String) : DiagramEdge := ⟨id, source, target, "flow", none⟩

/-- Four anonymous nodes for the grid-layout instance. -/
def gridSample4 : List DiagramNode := [dnode "n0", dnode "n1", dnode "n2", dnode "n3"]

/-- The chain `A -> B -> C` (nodes). -/
def chainNodes : List DiagramNode := [dnode "A", dnode "B", dnode "C"]

/-- The chain `A -> B -> C` (edges). -/
def chainEdges : List DiagramEdge := [dedge "e1" "A" "B", dedge "e2" "B" "C"]

/-! ## Size-calculator facts (claim C4) -/

/-- A single content line always forms exactly one section (whichever of
the three keyword branches it falls into), so the one-line content height
is one header, one section header, one item and the bottom padding. -/
theorem calculateContentHeight_singleton (line : String) :
    calculateContentHeight [line] = NODE_SIZING.headerHeight
      + (NODE_SIZING.sectionHeaderHeight + NODE_SIZING.itemHeight + NODE_SIZING.bottomPadding) := by
  unfold calculateContentHeight groupFeatureCounts
  simp only [List.foldl, List.length]
  rw [if_neg (by simp)]
  by_cases h1 : (strContains (strToLower line) "action"
      || strContains (strToLower line) ":action") = true
  · simp [h1]
  · by_cases h2 : (strContains (strToLower line) "attribute" || strContains (strToLower line) "attr"
        || !(strContains line ":")) = true
    · simp [h1, h2]
    · simp [h1, h2]

/-- **C4** (counterexample).  As stated the claim fails on the code: for a
non-container node with zero content lines `calculateNodeSize` returns the
clamped minimum height (90), not the header-only content height
(`headerHeight + 10 = 70`), and going from zero to one content line raises
the computed node height only from 90 to 130 — an increase of 40, strictly
below one section-header height plus one item height (24 + 26 = 50). -/
theorem c4_counterexample :
    (calculateNodeSize [] false).2 ≠ NODE_SIZING.headerHeight + 10 ∧
    (calculateNodeSize ["x"] false).2 - (calculateNodeSize [] false).2
      < NODE_SIZING.sectionHeaderHeight + NODE_SIZING.itemHeight := by
  decide

/-- **C4** (amended).  For a non-container structural node with zero
content lines the computed height is the fixed minimum-height constant
(which clamps the header-only content height `headerHeight + 10`); adding
one content line strictly increases the computed height, and increases
the underlying content height by at least one section-header height plus
one item height (the first line always opens exactly one new section). -/
theorem c4_empty_height_and_growth :
    (calculateNodeSize [] false).2 = NODE_SIZING.minHeight ∧
    calculateContentHeight [] = NODE_SIZING.headerHeight + 10 ∧
    ∀ line : String,
      (calculateNodeSize [line] false).2 > (calculateNodeSize [] false).2 ∧
      calculateContentHeight [line] ≥ calculateContentHeight []
        + NODE_SIZING.sectionHeaderHeight + NODE_SIZING.itemHeight := by
  refine ⟨by decide, by decide, fun line => ?_⟩
  have h := calculateContentHeight_singleton line
  constructor
  · simp only [calculateNodeSize, h]
    norm_num [NODE_SIZING.headerHeight, NODE_SIZING.sectionHeaderHeight,
      NODE_SIZING.itemHeight, NODE_SIZING.bottomPadding, NODE_SIZING.minHeight,
      calculateContentHeight]
  · rw [h]
    norm_num [NODE_SIZING.headerHeight, NODE_SIZING.sectionHeaderHeight,
      NODE_SIZING.itemHeight, NODE_SIZING.bottomPadding, calculateContentHeight]

/-! ## Grid layout (claims C7 and C10) -/

theorem gridAux_length (c : Nat) (w h : Rat) : ∀ (i : Nat) (l : List DiagramNode),
    (gridAux c w h i l).length = l.length
  | _, [] => rfl
  | i, _ :: rest => by simp [gridAux, gridAux_length c w h (i + 1) rest]

theorem gridAux_getElem (c : Nat) (w h : Rat) : ∀ (i : Nat) (l : List DiagramNode) (j : Nat),
    (gridAux c w h i l)[j]? = (l[j]?).map (fun node =>
      { node with
        position := ⟨(((i + j) % c : Nat) : Rat) * w, (((i + j) / c : Nat) : Rat) * h⟩ })
  | _, [], j => by simp [gridAux]
  | _, _ :: _, 0 => by simp [gridAux]
  | i, node :: rest, j + 1 => by
    simp only [gridAux, List.getElem?_cons_succ]
    rw [gridAux_getElem c w h (i + 1) rest j]
    have hij : i + 1 + j = i + (j + 1) := by omega
    rw [hij]

theorem gridAux_forall2 (c : Nat) (w h : Rat) : ∀ (i : Nat) (l : List DiagramNode),
    List.Forall₂ (fun a b => b.id = a.id ∧ b.type = a.type ∧ b.data = a.data
      ∧ b.style = a.style ∧ b.parentId = a.parentId) l (gridAux c w h i l)
  | _, [] => List.Forall₂.nil
  | i, node :: rest => by
    refine List.Forall₂.cons ?_ (gridAux_forall2 c w h (i + 1) rest)
    simp

/-- `ceilSqrt n` is at least the ceiling of the real square root. -/
theorem ceilSqrt_ge (n : Nat) : n ≤ ceilSqrt n * ceilSqrt n := by
  unfold ceilSqrt
  split
  · omega
  · have := Nat.lt_succ_sqrt n
    nlinarith [Nat.sqrt_le n]

/-- `ceilSqrt n` is at most the ceiling of the real square root. -/
theorem ceilSqrt_lt (n : Nat) (hn : 0 < n) : (ceilSqrt n - 1) * (ceilSqrt n - 1) < n := by
  unfold ceilSqrt
  split
  · rename_i heq
    rcases Nat.eq_zero_or_pos (Nat.sqrt n) with h0 | h0
    · rw [h0] at heq
      omega
    · obtain ⟨t, ht⟩ : ∃ t, Nat.sqrt n = t + 1 := ⟨Nat.sqrt n - 1, by omega⟩
      rw [ht] at heq
      rw [ht]
      simp only [Nat.add_sub_cancel]
      nlinarith
  · simp only [Nat.add_sub_cancel]
    have := Nat.sqrt_le n
    rename_i hne
    omega

/-- With the empty options object, `applyGridLayout` is `gridAux` with the
default 240 x 180 cell. -/
theorem applyGridLayout_noOpts (m : List DiagramNode) :
    applyGridLayout m noOpts = gridAux (ceilSqrt m.length) 240 180 0 m := by
  rw [applyGridLayout]
  norm_num [noOpts]

theorem ceilSqrt_four : ceilSqrt 4 = 2 := by
  have h2 : Nat.sqrt 4 = 2 := (Nat.eq_sqrt.mpr (by norm_num)).symm
  simp [ceilSqrt, h2]

/-- **C7**: `applyGridLayout` places the input nodes in order, row-major,
into a grid with `ceil(sqrt(n))` columns (characterized here by its
defining inequalities) and fixed default cell spacing 240 x 180,
independent of any edges (the function takes none); for the concrete
4-node instance, columns is 2, node 0 sits at `(0, 0)` and node 2's row
index `2 / columns = 1` differs from node 0's `0 / columns = 0`. -/
theorem c7_grid_layout (nodes : List DiagramNode) (hne : nodes ≠ []) :
    (applyGridLayout nodes noOpts).length = nodes.length ∧
    nodes.length ≤ ceilSqrt nodes.length * ceilSqrt nodes.length ∧
    (ceilSqrt nodes.length - 1) * (ceilSqrt nodes.length - 1) < nodes.length ∧
    (∀ j : Nat, (applyGridLayout nodes noOpts)[j]? = (nodes[j]?).map (fun node =>
      { node with
        position := ⟨((j % ceilSqrt nodes.length : Nat) : Rat) * 240,
          ((j / ceilSqrt nodes.length : Nat) : Rat) * 180⟩ })) ∧
    (ceilSqrt gridSample4.length = 2 ∧
      (applyGridLayout gridSample4 noOpts).map (fun n => n.position) =
        [⟨0, 0⟩, ⟨240, 0⟩, ⟨0, 180⟩, ⟨240, 180⟩] ∧
      2 / ceilSqrt gridSample4.length ≠ 0 / ceilSqrt gridSample4.length) := by
  have hlen4 : gridSample4.length = 4 := rfl
  have hc : ceilSqrt gridSample4.length = 2 := by rw [hlen4, ceilSqrt_four]
  refine ⟨?_, ceilSqrt_ge nodes.length, ceilSqrt_lt nodes.length (List.length_pos.mpr hne),
    ?_, hc, ?_, ?_⟩
  · rw [applyGridLayout_noOpts]
    exact gridAux_length _ _ _ 0 nodes
  · intro j
    rw [applyGridLayout_noOpts]
    simpa using gridAux_getElem (ceilSqrt nodes.length) 240 180 0 nodes j
  · rw [applyGridLayout_noOpts gridSample4, hc]
    norm_num [gridSample4, dnode, gridAux]
  · rw [hc]
    decide

/-- **C7** (witness): the theorem applied to the concrete 4-node list. -/
theorem c7_grid_layout_witness :
    gridSample4 ≠ [] ∧ (applyGridLayout gridSample4 noOpts).length = gridSample4.length :=
  ⟨by decide, (c7_grid_layout gridSample4 (by decide)).1⟩

/-- **C10**: both self-contained layout algorithms only rewrite the
`position` of each node: the output has the same length and order as the
input and agrees with it on every other field (`id`, `type`, `data`,
`style`, `parentId`). -/
theorem c10_layouts_frame (nodes : List DiagramNode) (edges : List DiagramEdge)
    (opts : LayoutOptions) :
    List.Forall₂ (fun a b => b.id = a.id ∧ b.type = a.type ∧ b.data = a.data
        ∧ b.style = a.style ∧ b.parentId = a.parentId)
      nodes (applyLevelLayout nodes edges opts) ∧
    List.Forall₂ (fun a b => b.id = a.id ∧ b.type = a.type ∧ b.data = a.data
        ∧ b.style = a.style ∧ b.parentId = a.parentId)
      nodes (applyGridLayout nodes opts) := by
  constructor
  · rw [applyLevelLayout, List.forall₂_map_right_iff, List.forall₂_same]
    intro x _
    simp
  · rw [applyGridLayout]
    exact gridAux_forall2 _ _ _ 0 nodes

/-! ## Graph Builder lemmas (claims C1, C2, C3, C9) -/

theorem classifyStep_structural (config : ViewConfig) (acc : ClassifyAcc) (s : DiagramSymbol) :
    (classifyStep config acc s).structural =
      if shouldShowNodeType s.nodeType config && decide (getNodeCategory s.nodeType = .structural)
      then acc.structural ++ [s] else acc.structural := by
  unfold classifyStep
  by_cases h : shouldShowNodeType s.nodeType config = true
  · cases hc : getNodeCategory s.nodeType with
    | structural => simp [h, hc]
    | port =>
      cases hp : s.parent with
      | none => simp [h, hc, hp]
      | some p => by_cases hpe : p = "" <;> simp [h, hc, hp, hpe]
    | property =>
      cases hp : s.parent with
      | none => simp [h, hc, hp]
      | some p => by_cases hpe : p = "" <;> simp [h, hc, hp, hpe]
  · simp [h]

theorem classify_structural_spec (config : ViewConfig) :
    ∀ (symbols : List DiagramSymbol) (acc : ClassifyAcc),
    (symbols.foldl (classifyStep config) acc).structural =
      acc.structural ++ symbols.filter (fun s => shouldShowNodeType s.nodeType config
        && decide (getNodeCategory s.nodeType = .structural))
  | [], acc => by simp
  | s :: rest, acc => by
    simp only [List.foldl, List.filter]
    rw [classify_structural_spec config rest (classifyStep config acc s),
      classifyStep_structural]
    by_cases h : (shouldShowNodeType s.nodeType config
        && decide (getNodeCategory s.nodeType = .structural)) = true
    · simp [h]
    · simp [h]

/-- The structural list produced by step 1 of `GeneralViewLayout.apply`
is exactly the type-filtered, structurally-classified symbols in input
order. -/
theorem classifySymbols_structural (symbols : List DiagramSymbol) (config : ViewConfig) :
    (classifySymbols symbols config).structural =
      symbols.filter (fun s => shouldShowNodeType s.nodeType config
        && decide (getNodeCategory s.nodeType = .structural)) := by
  rw [classifySymbols, classify_structural_spec]
  rfl

theorem buildNode_id (validTypes nodeIds hasChildren : List String)
    (props ports : List (String × List String)) (s : DiagramSymbol) :
    (buildNode validTypes nodeIds hasChildren props ports s).id = toNodeId s.qualifiedName := rfl

theorem buildNode_type (validTypes nodeIds hasChildren : List String)
    (props ports : List (String × List String)) (s : DiagramSymbol) :
    (buildNode validTypes nodeIds hasChildren props ports s).type =
      if decide (s.nodeType ∈ validTypes) then s.nodeType else "default" := rfl

theorem buildEdgesAux_sound (nodeIds : List String) :
    ∀ (i : Nat) (rels : List DiagramRelationship) (e : RFEdge),
    e ∈ buildEdgesAux nodeIds i rels →
      e.source ∈ nodeIds ∧ e.target ∈ nodeIds ∧
      ∃ r ∈ rels, e.source = toNodeId r.source ∧ e.target = toNodeId r.target ∧ e.type = r.type
  | _, [], e => by simp [buildEdgesAux]
  | i, rel :: rest, e => by
    simp only [buildEdgesAux]
    split
    · rename_i hcond
      simp only [Bool.and_eq_true, decide_eq_true_eq] at hcond
      intro hmem
      rcases List.mem_cons.mp hmem with heq | htail
      · subst heq
        exact ⟨hcond.1, hcond.2, rel, List.mem_cons_self rel rest, rfl, rfl, rfl⟩
      · obtain ⟨h1, h2, r, hr, hsr⟩ := buildEdgesAux_sound nodeIds (i + 1) rest e htail
        exact ⟨h1, h2, r, List.mem_cons_of_mem _ hr, hsr⟩
    · intro hmem
      obtain ⟨h1, h2, r, hr, hsr⟩ := buildEdgesAux_sound nodeIds (i + 1) rest e hmem
      exact ⟨h1, h2, r, List.mem_cons_of_mem _ hr, hsr⟩

theorem buildEdgesAux_complete (nodeIds : List String) :
    ∀ (i : Nat) (rels : List DiagramRelationship) (r : DiagramRelationship),
    r ∈ rels → toNodeId r.source ∈ nodeIds → toNodeId r.target ∈ nodeIds →
      ∃ e ∈ buildEdgesAux nodeIds i rels,
        e.source = toNodeId r.source ∧ e.target = toNodeId r.target ∧ e.type = r.type
  | _, [], r => by simp
  | i, rel :: rest, r => by
    intro hr hsrc htgt
    rcases List.mem_cons.mp hr with heq | htail
    · subst heq
      refine ⟨⟨"edge_" ++ toString i, toNodeId r.source, toNodeId r.target, r.type, r.type⟩,
        ?_, rfl, rfl, rfl⟩
      simp only [buildEdgesAux]
      rw [if_pos (by simp [hsrc, htgt])]
      exact List.mem_cons_self _ _
    · obtain ⟨e, he, hsr⟩ := buildEdgesAux_complete nodeIds (i + 1) rest r htail hsrc htgt
      refine ⟨e, ?_, hsr⟩
      simp only [buildEdgesAux]
      split
      · exact List.mem_cons_of_mem _ he
      · exact he

/-- Decoding after encoding is the identity on id-sources without
underscores: the encoding is injective on such strings. -/
theorem from_to : ∀ (l : List Char), '_' ∉ l → fromNodeIdChars (toNodeIdChars l) = l
  | [], _ => rfl
  | [c], h => by
    have hc : c ≠ '_' := by
      intro heq
      exact h (by simp [heq])
    simp [toNodeIdChars, fromNodeIdChars, hc]
  | c1 :: c2 :: rest, h => by
    have hc1 : c1 ≠ '_' := by
      intro heq
      exact h (by simp [heq])
    have h2 : '_' ∉ c2 :: rest := by
      intro hmem
      exact h (List.mem_cons_of_mem _ hmem)
    by_cases h12 : c1 = ':' ∧ c2 = ':'
    · have hrest : '_' ∉ rest := by
        intro hmem
        exact h2 (List.mem_cons_of_mem _ hmem)
      obtain ⟨e1, e2⟩ := h12
      subst e1
      subst e2
      simp [toNodeIdChars, fromNodeIdChars, from_to rest hrest]
    · simp only [toNodeIdChars, if_neg h12]
      simp [fromNodeIdChars, hc1, from_to (c2 :: rest) h2]

theorem toNodeId_inj (a b : String) (ha : '_' ∉ a.data) (hb : '_' ∉ b.data)
    (h : toNodeId a = toNodeId b) : a = b := by
  have hdata : toNodeIdChars a.data = toNodeIdChars b.data := congrArg String.data h
  have h2 := congrArg fromNodeIdChars hdata
  rw [from_to a.data ha, from_to b.data hb] at h2
  cases a
  cases b
  exact congrArg String.mk h2

/-! ## Claim C1: edge construction -/

/-- **C1**: for every relationship passing the edge-type filter, an edge
with its encoded endpoints is in the built graph iff both encoded
endpoints are ids of retained structural nodes; and every built edge has
both endpoints among the retained node ids and comes from a
filter-passing relationship (so filtered or dangling relationships
contribute nothing; the builder is total, so nothing is ever thrown). -/
theorem c1_edge_iff (validTypes : List String) (symbols : List DiagramSymbol)
    (relationships : List DiagramRelationship) (config : ViewConfig) :
    (∀ r ∈ relationships, shouldShowEdgeType r.type config = true →
      ((∃ e ∈ (generalViewBuild validTypes symbols relationships config).2,
          e.source = toNodeId r.source ∧ e.target = toNodeId r.target) ↔
        (toNodeId r.source ∈ (generalViewBuild validTypes symbols relationships config).1.map
            (fun n => n.id) ∧
          toNodeId r.target ∈ (generalViewBuild validTypes symbols relationships config).1.map
            (fun n => n.id)))) ∧
    (∀ e ∈ (generalViewBuild validTypes symbols relationships config).2,
      e.source ∈ (generalViewBuild validTypes symbols relationships config).1.map
        (fun n => n.id) ∧
      e.target ∈ (generalViewBuild validTypes symbols relationships config).1.map
        (fun n => n.id) ∧
      ∃ r ∈ relationships, shouldShowEdgeType r.type config = true ∧
        e.source = toNodeId r.source ∧ e.target = toNodeId r.target ∧ e.type = r.type) := by
  have hsnd : (generalViewBuild validTypes symbols relationships config).2 =
      buildEdgesAux ((generalViewBuild validTypes symbols relationships config).1.map
          (fun n => n.id)) 0
        (relationships.filter (fun r => shouldShowEdgeType r.type config)) := rfl
  constructor
  · intro r hr hshow
    constructor
    · rintro ⟨e, he, hsrc, htgt⟩
      rw [hsnd] at he
      obtain ⟨h1, h2, -⟩ := buildEdgesAux_sound _ 0 _ e he
      rw [hsrc] at h1
      rw [htgt] at h2
      exact ⟨h1, h2⟩
    · rintro ⟨h1, h2⟩
      have hrf : r ∈ relationships.filter (fun r => shouldShowEdgeType r.type config) :=
        List.mem_filter.mpr ⟨hr, hshow⟩
      obtain ⟨e, he, hsrc, htgt, -⟩ := buildEdgesAux_complete _ 0 _ r hrf h1 h2
      rw [← hsnd] at he
      exact ⟨e, he, hsrc, htgt⟩
  · intro e he
    rw [hsnd] at he
    obtain ⟨h1, h2, r, hrf, hsr⟩ := buildEdgesAux_sound _ 0 _ e he
    obtain ⟨hrmem, hshow⟩ := List.mem_filter.mp hrf
    exact ⟨h1, h2, r, hrmem, by simpa using hshow, hsr⟩

/-- Symbols for the C1 witness: `A` and `B` exist but are filtered out by
the node-type allow-list, and the relationship `A -> B` passes the edge
filter; the instantiated theorem then says the edge exists iff both
encoded endpoints are retained — and here neither is. -/
def c1syms : List DiagramSymbol :=
  [⟨"A", "A", "PartDef", none, none, none, none⟩,
   ⟨"B", "B", "PartDef", none, none, none, none⟩]

/-- The `A -> B` relationship of the C1 witness. -/
def c1rel : DiagramRelationship := ⟨"dependency", "A", "B", none, none⟩

/-- A config whose node-type allow-list excludes every symbol of
`c1syms` but whose edge-type allow-list is absent. -/
def c1cfg : ViewConfig := ⟨"GeneralView", none, some ["X"], none, none⟩

/-- **C1** (witness): the theorem instantiated at the concrete filtered
input. -/
theorem c1_edge_iff_witness :
    (∃ e ∈ (generalViewBuild [] c1syms [c1rel] c1cfg).2,
        e.source = toNodeId c1rel.source ∧ e.target = toNodeId c1rel.target) ↔
      (toNodeId c1rel.source ∈ (generalViewBuild [] c1syms [c1rel] c1cfg).1.map
          (fun n => n.id) ∧
        toNodeId c1rel.target ∈ (generalViewBuild [] c1syms [c1rel] c1cfg).1.map
          (fun n => n.id)) :=
  (c1_edge_iff [] c1syms [c1rel] c1cfg).1 c1rel (List.mem_cons_self _ _) (by decide)

/-! ## Claim C2: node ids -/

/-- Two symbols with distinct qualified names that collide after
encoding (`A::B` and `A_B` both encode to `A_B`). -/
def c2syms : List DiagramSymbol :=
  [⟨"B", "A::B", "PartDef", none, none, none, none⟩,
   ⟨"B2", "A_B", "PartDef", none, none, none, none⟩]

/-- **C2** (counterexample): the claim fails as stated — the qualified
names `A::B` and `A_B` are distinct, yet the two retained nodes share
the id `A_B`, because the `::` to `_` encoding is not injective. -/
theorem c2_counterexample :
    (c2syms.map (fun s => s.qualifiedName)).Nodup ∧
    ¬ ((generalViewBuild [] c2syms [] allConfig).1.map (fun n => n.id)).Nodup := by
  decide

/-- Symbols with distinct, underscore-free qualified names for the C2
witness. -/
def c2wsyms : List DiagramSymbol :=
  [⟨"B", "A::B", "PartDef", none, none, none, none⟩,
   ⟨"C", "A::C", "PartDef", none, none, none, none⟩]

/-- **C2** (amended): if all qualified names are distinct **and none
contains an underscore** (so the `::` to `_` encoding is injective),
every retained node id is unique; and unconditionally every retained
node's id is `toNodeId` of some input symbol's qualified name — a pure
function of the qualified name alone, hence deterministic across runs. -/
theorem c2_ids_unique (validTypes : List String) (symbols : List DiagramSymbol)
    (relationships : List DiagramRelationship) (config : ViewConfig)
    (hq : (symbols.map (fun s => s.qualifiedName)).Nodup)
    (hu : ∀ s ∈ symbols, '_' ∉ s.qualifiedName.data) :
    ((generalViewBuild validTypes symbols relationships config).1.map (fun n => n.id)).Nodup ∧
    ∀ node ∈ (generalViewBuild validTypes symbols relationships config).1,
      ∃ s ∈ symbols, node.id = toNodeId s.qualifiedName := by
  have hfst : (generalViewBuild validTypes symbols relationships config).1 =
      buildNodes validTypes (classifySymbols symbols config).structural
        (classifySymbols symbols config).props (classifySymbols symbols config).ports := rfl
  have hsub : (classifySymbols symbols config).structural.Sublist symbols := by
    rw [classifySymbols_structural]
    exact List.filter_sublist symbols
  have hids : (generalViewBuild validTypes symbols relationships config).1.map (fun n => n.id) =
      (classifySymbols symbols config).structural.map (fun s => toNodeId s.qualifiedName) := by
    rw [hfst, buildNodes, List.map_map]
    rfl
  constructor
  · rw [hids]
    have hqn : ((classifySymbols symbols config).structural.map
        (fun s => s.qualifiedName)).Nodup :=
      List.Nodup.sublist (hsub.map _) hq
    have hnodup_st : (classifySymbols symbols config).structural.Nodup := hqn.of_map _
    apply List.Nodup.map_on ?_ hnodup_st
    intro x hx y hy hxy
    have hqx : '_' ∉ x.qualifiedName.data := hu x (hsub.subset hx)
    have hqy : '_' ∉ y.qualifiedName.data := hu y (hsub.subset hy)
    have heq := toNodeId_inj _ _ hqx hqy hxy
    exact List.inj_on_of_nodup_map hqn hx hy heq
  · intro node hnode
    rw [hfst, buildNodes] at hnode
    obtain ⟨s, hs, rfl⟩ := List.mem_map.mp hnode
    exact ⟨s, hsub.subset hs, rfl⟩

/-- **C2** (witness): the amended theorem applied to two symbols with
distinct underscore-free qualified names. -/
theorem c2_ids_unique_witness :
    ((generalViewBuild [] c2wsyms [] allConfig).1.map (fun n => n.id)).Nodup :=
  (c2_ids_unique [] c2wsyms [] allConfig (by decide) (by decide)).1

/-! ## Claim C9: unknown node types -/

/-- **C9**: a symbol passing the node-type filter and classified
structural whose `nodeType` is not among the registered node types is
still retained as a node, tagged with the fallback type `default`
(`buildNodes` is total: no input is rejected). -/
theorem c9_unknown_type_default (validTypes : List String) (symbols : List DiagramSymbol)
    (relationships : List DiagramRelationship) (config : ViewConfig) (s : DiagramSymbol)
    (hs : s ∈ symbols) (hshow : shouldShowNodeType s.nodeType config = true)
    (hcat : getNodeCategory s.nodeType = .structural)
    (hunk : s.nodeType ∉ validTypes) :
    ∃ node ∈ (generalViewBuild validTypes symbols relationships config).1,
      node.id = toNodeId s.qualifiedName ∧
      node.data.qualifiedName = s.qualifiedName ∧ node.type = "default" := by
  have hmem : s ∈ (classifySymbols symbols config).structural := by
    rw [classifySymbols_structural]
    rw [List.mem_filter]
    exact ⟨hs, by simp [hshow, hcat]⟩
  refine ⟨buildNode validTypes
    ((classifySymbols symbols config).structural.map fun t => toNodeId t.qualifiedName)
    ((classifySymbols symbols config).structural.filterMap
      fun t => t.parent.bind fun p => if p = "" then none else some (toNodeId p))
    (classifySymbols symbols config).props (classifySymbols symbols config).ports s,
    ?_, rfl, rfl, ?_⟩
  · exact List.mem_map_of_mem _ hmem
  · rw [buildNode_type]
    simp [hunk]

/-- A structural symbol with an unregistered node type for the C9
witness. -/
def c9sym : DiagramSymbol := ⟨"W", "Pkg::W", "MysteryDef", none, none, none, none⟩

/-- **C9** (witness): the theorem applied to a symbol whose type is not
in the registered list. -/
theorem c9_unknown_type_default_witness :
    ∃ node ∈ (generalViewBuild ["PartDef"] [c9sym] [] allConfig).1,
      node.id = toNodeId c9sym.qualifiedName ∧
      node.data.qualifiedName = c9sym.qualifiedName ∧ node.type = "default" :=
  c9_unknown_type_default ["PartDef"] [c9sym] [] allConfig c9sym
    (List.mem_cons_self _ _) (by decide) (by decide) (by decide)


/-! ## Claim C3: content aggregation

`propLines`/`portLines` are the specification-side description of the
aggregation (the formatted lines of the filter-passing property/port
children of a parent, in input order); the claim theorem proves the maps
built by the step-1 loop agree with them. -/

/-- A symbol contributes a property line to parent `qn`: it passes the
node-type filter, classifies as a property, and declares `qn` as its
(truthy) parent. -/
def isPropChild (config : ViewConfig) (qn : String) (s : DiagramSymbol) : Bool :=
  shouldShowNodeType s.nodeType config && decide (getNodeCategory s.nodeType = .property)
    && decide (s.parent = some qn) && decide (qn ≠ "")

/-- A symbol contributes a port line to parent `qn`. -/
def isPortChild (config : ViewConfig) (qn : String) (s : DiagramSymbol) : Bool :=
  shouldShowNodeType s.nodeType config && decide (getNodeCategory s.nodeType = .port)
    && decide (s.parent = some qn) && decide (qn ≠ "")

/-- The formatted property lines of `qn`'s property children, in input
order. -/
def propLines (symbols : List DiagramSymbol) (config : ViewConfig) (qn : String) : List String :=
  (symbols.filter (isPropChild config qn)).map memberText

/-- The formatted port lines of `qn`'s port children, in input order. -/
def portLines (symbols : List DiagramSymbol) (config : ViewConfig) (qn : String) : List String :=
  (symbols.filter (isPortChild config qn)).map memberText

theorem alGet_alPush_self : ∀ (m : List (String × List String)) (k v : String),
    alGet (alPush m k v) k = some ((alGet m k).getD [] ++ [v])
  | [], k, v => by simp [alPush, alGet]
  | (k0, v0) :: rest, k, v => by
    by_cases h : k0 = k
    · subst h
      simp [alPush, alGet]
    · simp [alPush, alGet, h, alGet_alPush_self rest k v]

theorem alGet_alPush_other : ∀ (m : List (String × List String)) (k v k2 : String),
    k2 ≠ k → alGet (alPush m k v) k2 = alGet m k2
  | [], k, v, k2, h => by
    simp only [alPush, alGet]
    rw [if_neg (fun hh : k = k2 => h hh.symm)]
  | (k0, v0) :: rest, k, v, k2, h => by
    by_cases h0 : k0 = k
    · simp only [alPush, if_pos h0, alGet]
      have hne : ¬ k0 = k2 := fun hh => h (hh.symm.trans h0)
      rw [if_neg hne, if_neg hne]
    · simp only [alPush, if_neg h0, alGet]
      by_cases h2 : k0 = k2
      · rw [if_pos h2, if_pos h2]
      · rw [if_neg h2, if_neg h2, alGet_alPush_other rest k v k2 h]

theorem propLines_cons (config : ViewConfig) (qn : String) (s : DiagramSymbol)
    (rest : List DiagramSymbol) :
    propLines (s :: rest) config qn =
      (if isPropChild config qn s then [memberText s] else []) ++ propLines rest config qn := by
  simp only [propLines, List.filter_cons]
  split <;> simp

theorem portLines_cons (config : ViewConfig) (qn : String) (s : DiagramSymbol)
    (rest : List DiagramSymbol) :
    portLines (s :: rest) config qn =
      (if isPortChild config qn s then [memberText s] else []) ++ portLines rest config qn := by
  simp only [portLines, List.filter_cons]
  split <;> simp

theorem classifyStep_props_get (config : ViewConfig) (qn : String) (acc : ClassifyAcc)
    (s : DiagramSymbol) :
    (alGet (classifyStep config acc s).props qn).getD [] =
      (alGet acc.props qn).getD []
        ++ (if isPropChild config qn s then [memberText s] else []) := by
  unfold classifyStep
  by_cases h : shouldShowNodeType s.nodeType config = true
  · cases hc : getNodeCategory s.nodeType with
    | structural => simp [h, hc, isPropChild]
    | port =>
      cases hp : s.parent with
      | none => simp [h, hc, hp, isPropChild]
      | some p => by_cases hpe : p = "" <;> simp [h, hc, hp, hpe, isPropChild]
    | property =>
      cases hp : s.parent with
      | none => simp [h, hc, hp, isPropChild]
      | some p =>
        by_cases hpe : p = ""
        · subst hpe
          by_cases hqe : qn = ""
          · simp [h, hc, hp, isPropChild, hqe]
          · simp [h, hc, hp, isPropChild,
              (show ¬ ("" : String) = qn from fun hh => hqe hh.symm)]
        · by_cases hpq : p = qn
          · subst hpq
            simp [h, hc, hp, hpe, isPropChild, alGet_alPush_self]
          · simp [h, hc, hp, hpe, isPropChild, hpq,
              alGet_alPush_other acc.props p (memberText s) qn
                (fun hh : qn = p => hpq hh.symm)]
  · simp [h, isPropChild]

theorem classifyStep_ports_get (config : ViewConfig) (qn : String) (acc : ClassifyAcc)
    (s : DiagramSymbol) :
    (alGet (classifyStep config acc s).ports qn).getD [] =
      (alGet acc.ports qn).getD []
        ++ (if isPortChild config qn s then [memberText s] else []) := by
  unfold classifyStep
  by_cases h : shouldShowNodeType s.nodeType config = true
  · cases hc : getNodeCategory s.nodeType with
    | structural => simp [h, hc, isPortChild]
    | property =>
      cases hp : s.parent with
      | none => simp [h, hc, hp, isPortChild]
      | some p => by_cases hpe : p = "" <;> simp [h, hc, hp, hpe, isPortChild]
    | port =>
      cases hp : s.parent with
      | none => simp [h, hc, hp, isPortChild]
      | some p =>
        by_cases hpe : p = ""
        · subst hpe
          by_cases hqe : qn = ""
          · simp [h, hc, hp, isPortChild, hqe]
          · simp [h, hc, hp, isPortChild,
              (show ¬ ("" : String) = qn from fun hh => hqe hh.symm)]
        · by_cases hpq : p = qn
          · subst hpq
            simp [h, hc, hp, hpe, isPortChild, alGet_alPush_self]
          · simp [h, hc, hp, hpe, isPortChild, hpq,
              alGet_alPush_other acc.ports p (memberText s) qn
                (fun hh : qn = p => hpq hh.symm)]
  · simp [h, isPortChild]

theorem classify_props_spec (config : ViewConfig) (qn : String) :
    ∀ (symbols : List DiagramSymbol) (acc : ClassifyAcc),
    (alGet (symbols.foldl (classifyStep config) acc).props qn).getD [] =
      (alGet acc.props qn).getD [] ++ propLines symbols config qn
  | [], acc => by simp [propLines]
  | s :: rest, acc => by
    rw [List.foldl, classify_props_spec config qn rest (classifyStep config acc s),
      classifyStep_props_get, propLines_cons, List.append_assoc]

theorem classify_ports_spec (config : ViewConfig) (qn : String) :
    ∀ (symbols : List DiagramSymbol) (acc : ClassifyAcc),
    (alGet (symbols.foldl (classifyStep config) acc).ports qn).getD [] =
      (alGet acc.ports qn).getD [] ++ portLines symbols config qn
  | [], acc => by simp [portLines]
  | s :: rest, acc => by
    rw [List.foldl, classify_ports_spec config qn rest (classifyStep config acc s),
      classifyStep_ports_get, portLines_cons, List.append_assoc]

/-- The property-aggregation map built by step 1 groups exactly the
property children of each parent, in input order. -/
theorem classifySymbols_props (symbols : List DiagramSymbol) (config : ViewConfig)
    (qn : String) :
    (alGet (classifySymbols symbols config).props qn).getD [] = propLines symbols config qn := by
  rw [classifySymbols, classify_props_spec]
  rfl

/-- The port-aggregation map built by step 1 groups exactly the port
children of each parent, in input order. -/
theorem classifySymbols_ports (symbols : List DiagramSymbol) (config : ViewConfig)
    (qn : String) :
    (alGet (classifySymbols symbols config).ports qn).getD [] = portLines symbols config qn := by
  rw [classifySymbols, classify_ports_spec]
  rfl

/-- The parent `P` of the concrete content-aggregation instance. -/
def c3P : DiagramSymbol := ⟨"P", "P", "PartDef", none, none, none, none⟩

/-- Parent `P` with one property child (`name=x, typedBy=T`) and one port
child (`name=p, direction=in`). -/
def c3syms : List DiagramSymbol :=
  [c3P,
   ⟨"x", "P::x", "AttributeUsage", some "P", none, some "T", none⟩,
   ⟨"p", "P::p", "PortUsage", some "P", none, none, some "in"⟩]

/-- **C3** (amended): every retained structural symbol's node carries as
merged content its property children's lines in input order, then (only
if port children exist) a single separator followed by the port lines in
input order, then the symbol's own pre-supplied features, **with empty
lines removed** (the builder's `.filter(f => f)` drops falsy lines); and
for the concrete parent with children `x : T` and `in p` the merged
content is exactly `["x : T", "---", "in p"]`. -/
theorem c3_content (validTypes : List String) (symbols : List DiagramSymbol)
    (relationships : List DiagramRelationship) (config : ViewConfig) (s : DiagramSymbol)
    (hs : s ∈ symbols) (hshow : shouldShowNodeType s.nodeType config = true)
    (hcat : getNodeCategory s.nodeType = .structural) :
    (∃ node ∈ (generalViewBuild validTypes symbols relationships config).1,
      node.id = toNodeId s.qualifiedName ∧
      node.data.features.getD [] =
        (propLines symbols config s.qualifiedName
          ++ (if portLines symbols config s.qualifiedName = [] then []
              else "---" :: portLines symbols config s.qualifiedName)
          ++ s.features.getD []).filter (fun f => decide (f ≠ ""))) ∧
    ((generalViewBuild ["PartDef"] c3syms [] allConfig).1.map
        (fun n => n.data.features)) = [some ["x : T", "---", "in p"]] := by
  refine ⟨?_, by decide⟩
  have hmem : s ∈ (classifySymbols symbols config).structural := by
    rw [classifySymbols_structural]
    rw [List.mem_filter]
    exact ⟨hs, by simp [hshow, hcat]⟩
  refine ⟨buildNode validTypes
    ((classifySymbols symbols config).structural.map fun t => toNodeId t.qualifiedName)
    ((classifySymbols symbols config).structural.filterMap
      fun t => t.parent.bind fun p => if p = "" then none else some (toNodeId p))
    (classifySymbols symbols config).props (classifySymbols symbols config).ports s,
    List.mem_map_of_mem _ hmem, rfl, ?_⟩
  have hfeat : (buildNode validTypes
      ((classifySymbols symbols config).structural.map fun t => toNodeId t.qualifiedName)
      ((classifySymbols symbols config).structural.filterMap
        fun t => t.parent.bind fun p => if p = "" then none else some (toNodeId p))
      (classifySymbols symbols config).props
      (classifySymbols symbols config).ports s).data.features =
      (fun M => if M.length > 0 then some M else none)
        (mergeContent ((alGet (classifySymbols symbols config).props s.qualifiedName).getD [])
          ((alGet (classifySymbols symbols config).ports s.qualifiedName).getD [])
          (s.features.getD [])) := rfl
  rw [hfeat, classifySymbols_props, classifySymbols_ports]
  show (if (mergeContent (propLines symbols config s.qualifiedName)
      (portLines symbols config s.qualifiedName) (s.features.getD [])).length > 0
    then some (mergeContent (propLines symbols config s.qualifiedName)
      (portLines symbols config s.qualifiedName) (s.features.getD [])) else none).getD []
    = mergeContent (propLines symbols config s.qualifiedName)
      (portLines symbols config s.qualifiedName) (s.features.getD [])
  cases hM : mergeContent (propLines symbols config s.qualifiedName)
      (portLines symbols config s.qualifiedName) (s.features.getD []) with
  | nil => simp
  | cons a l => simp

/-- **C3** (witness): the amended theorem applied to the concrete parent
`P` with one property child and one port child. -/
theorem c3_content_witness :
    ∃ node ∈ (generalViewBuild ["PartDef"] c3syms [] allConfig).1,
      node.id = toNodeId c3P.qualifiedName ∧
      node.data.features.getD [] =
        (propLines c3syms allConfig c3P.qualifiedName
          ++ (if portLines c3syms allConfig c3P.qualifiedName = [] then []
              else "---" :: portLines c3syms allConfig c3P.qualifiedName)
          ++ c3P.features.getD []).filter (fun f => decide (f ≠ "")) :=
  (c3_content ["PartDef"] c3syms [] allConfig c3P (List.mem_cons_self _ _)
    (by decide) (by decide)).1

/-- A parent with no children and the pre-supplied feature list `[""]`. -/
def c3badSym : DiagramSymbol := ⟨"P", "P", "PartDef", none, some [""], none, none⟩

/-- **C3** (counterexample): as stated the claim fails on the code.  For
a parent with no property or port children and pre-supplied features
`[""]`, the claimed merged content is `[] ++ [] ++ [""] = [""]`, but the
built node's content is `[]` because `.filter(f => f)` silently drops
empty lines. -/
theorem c3_counterexample :
    propLines [c3badSym] allConfig "P" = [] ∧
    portLines [c3badSym] allConfig "P" = [] ∧
    c3badSym.features.getD [] = [""] ∧
    ((generalViewBuild [] [c3badSym] [] allConfig).1.map (fun n => n.data.features.getD []))
      = [[]] ∧
    (([] : List String) ++ [] ++ [""]) ≠ [] := by
  decide


/-! ## Claim C6: level layout direction and monotonicity -/

/-- Options selecting the `TB` direction (all numeric defaults). -/
def tbOpts : LayoutOptions := ⟨none, none, none, none, some .TB⟩

/-- Options selecting the `LR` direction (all numeric defaults). -/
def lrOpts : LayoutOptions := ⟨none, none, none, none, some .LR⟩

/-- `levels.get(id) ?? 0` as used by `applyLevelLayout`. -/
def levelOf (nodes : List DiagramNode) (edges : List DiagramEdge) (id : String) : Nat :=
  (lget (calculateLevels nodes edges none) id).getD 0

/-- The per-level groups map built by `applyLevelLayout`. -/
def levelGroups (nodes : List DiagramNode) (edges : List DiagramEdge) :
    List (Nat × List DiagramNode) :=
  nodes.foldl (fun m n => blPush m (levelOf nodes edges n.id) n) []

/-- The within-level coordinate `applyLevelLayout` computes with default
numeric options (before the direction flag places it on an axis). -/
def levelX (nodes : List DiagramNode) (edges : List DiagramEdge) (node : DiagramNode) : Rat :=
  let levelNodes := (blGet (levelGroups nodes edges) (levelOf nodes edges node.id)).getD []
  let totalWidth := (levelNodes.length : Rat) * 160 + ((levelNodes.length : Rat) - 1) * 80
  (idxOf node levelNodes : Rat) * (160 + 80) - totalWidth / 2 + 300

/-- The level-axis coordinate `applyLevelLayout` computes with default
numeric options. -/
def levelY (nodes : List DiagramNode) (edges : List DiagramEdge) (node : DiagramNode) : Rat :=
  ((levelOf nodes edges node.id : Nat) : Rat) * (80 + 100) + 50

theorem applyLevelLayout_tb (nodes : List DiagramNode) (edges : List DiagramEdge) :
    applyLevelLayout nodes edges tbOpts = nodes.map (fun node =>
      { node with position := ⟨levelX nodes edges node, levelY nodes edges node⟩ }) := rfl

theorem applyLevelLayout_lr (nodes : List DiagramNode) (edges : List DiagramEdge) :
    applyLevelLayout nodes edges lrOpts = nodes.map (fun node =>
      { node with position := ⟨levelY nodes edges node, levelX nodes edges node⟩ }) := rfl

/-- **C6**: with direction `TB` the level-axis coordinate `y` is strictly
increasing in the node's level; the `LR` output is exactly the `TB`
output with the `x` and `y` coordinates of every node exchanged; and on
the chain `A -> B -> C` the levels are `A:0, B:1, C:2` with
`y(A) = 50 < y(B) = 230 < y(C) = 410`. -/
theorem c6_level_layout (nodes : List DiagramNode) (edges : List DiagramEdge) :
    (applyLevelLayout nodes edges lrOpts = (applyLevelLayout nodes edges tbOpts).map
      (fun n => { n with position := ⟨n.position.y, n.position.x⟩ })) ∧
    (∀ m1 ∈ applyLevelLayout nodes edges tbOpts, ∀ m2 ∈ applyLevelLayout nodes edges tbOpts,
      levelOf nodes edges m1.id < levelOf nodes edges m2.id → m1.position.y < m2.position.y) ∧
    (calculateLevels chainNodes chainEdges none = [("A", 0), ("B", 1), ("C", 2)] ∧
      (applyLevelLayout chainNodes chainEdges tbOpts).map (fun n => (n.id, n.position.y)) =
        [("A", 50), ("B", 230), ("C", 410)]) := by
  have hy : ∀ m ∈ applyLevelLayout nodes edges tbOpts,
      m.position.y = ((levelOf nodes edges m.id : Nat) : Rat) * (80 + 100) + 50 := by
    intro m hm
    rw [applyLevelLayout_tb] at hm
    obtain ⟨n, hn, rfl⟩ := List.mem_map.mp hm
    rfl
  refine ⟨?_, ?_, ?_, ?_⟩
  · rw [applyLevelLayout_lr, applyLevelLayout_tb, List.map_map]
    rfl
  · intro m1 hm1 m2 hm2 hlt
    rw [hy m1 hm1, hy m2 hm2]
    have hcast : ((levelOf nodes edges m1.id : Nat) : Rat)
        < ((levelOf nodes edges m2.id : Nat) : Rat) := by exact_mod_cast hlt
    have := mul_lt_mul_of_pos_right hcast (by norm_num : (0 : Rat) < 80 + 100)
    linarith
  · decide
  · have hlev : calculateLevels chainNodes chainEdges none
        = [("A", 0), ("B", 1), ("C", 2)] := by decide
    rw [applyLevelLayout_tb]
    simp only [chainNodes, dnode, List.map]
    norm_num [levelY, levelOf, hlev, lget, dedge,
      (by decide : ¬ (("A" : String) = "B")), (by decide : ¬ (("A" : String) = "C")),
      (by decide : ¬ (("B" : String) = "C"))]

/-- **C6** (witness): the theorem applied at the concrete chain, reading
off that `B` (level 1) is placed strictly below `A` (level 0). -/
theorem c6_level_layout_witness :
    ∀ m1 ∈ applyLevelLayout chainNodes chainEdges tbOpts,
    ∀ m2 ∈ applyLevelLayout chainNodes chainEdges tbOpts,
      levelOf chainNodes chainEdges m1.id < levelOf chainNodes chainEdges m2.id →
      m1.position.y < m2.position.y :=
  (c6_level_layout chainNodes chainEdges).2.1

/-! ## Claim C8: container padding in the ELK request -/

/-- A parent node for the C8 witness. -/
def c8parent : RFNode :=
  ⟨"P", "PartDef", ⟨0, 0⟩, ⟨"P", "P", none, none, none⟩, 300, 200, none, false⟩

/-- A child of `c8parent` for the C8 witness. -/
def c8child : RFNode :=
  ⟨"C", "PartDef", ⟨0, 0⟩, ⟨"C", "P::C", none, none, none⟩, 200, 90, some "P", true⟩

/-- The two-node forest of the C8 witness. -/
def c8nodes : List RFNode := [c8parent, c8child]

/-- **C8**: every node of the built ELK request tree that has children
carries the container layout sub-configuration whose top padding is
exactly the Size Calculator's exposed value
(`calculateElkTopPadding` = content height including the header, plus the
fixed child gap) for that node's features, while the left, bottom and
right paddings are the fixed constants 20, 30, 20 independent of
content. -/
theorem c8_container_padding : ∀ (nodes : List RFNode) (fuel : Nat) (root : RFNode)
    (d : ElkNode),
    root ∈ nodes → ElkDesc (buildElkNode nodes fuel root) d → d.children ≠ [] →
    ∃ g ∈ nodes, d.id = g.id ∧
      d.layoutOptions = some ⟨calculateElkTopPadding (g.data.features.getD []), 20, 30, 20⟩
  | nodes, 0, root, d => by
    intro hroot hdesc hne
    cases hdesc with
    | refl => exact absurd rfl hne
    | child hc hd => simp [buildElkNode, ElkNode.children] at hc
  | nodes, fuel + 1, root, d => by
    intro hroot hdesc hne
    by_cases hch : (childrenOf nodes root.id).length > 0
    · have hbuild : buildElkNode nodes (fuel + 1) root =
        .mk root.id root.width root.height
          (some ⟨calculateElkTopPadding (root.data.features.getD []), 20, 30, 20⟩)
          ((childrenOf nodes root.id).map (buildElkNode nodes fuel)) := by
        simp [buildElkNode, hch]
      rw [hbuild] at hdesc
      cases hdesc with
      | refl => exact ⟨root, hroot, rfl, rfl⟩
      | child hc hd =>
        simp only [ElkNode.children] at hc
        obtain ⟨c0, hc0, rfl⟩ := List.mem_map.mp hc
        exact c8_container_padding nodes fuel c0 d (List.mem_of_mem_filter hc0) hd hne
    · have hbuild : buildElkNode nodes (fuel + 1) root =
          .mk root.id root.width root.height none [] := by
        simp [buildElkNode, hch]
      rw [hbuild] at hdesc
      cases hdesc with
      | refl => exact absurd rfl hne
      | child hc hd => simp [ElkNode.children] at hc

/-- **C8** (witness): the theorem applied to a concrete parent with one
child (its top padding is `calculateElkTopPadding [] = 90`). -/
theorem c8_container_padding_witness :
    ∃ g ∈ c8nodes, (buildElkNode c8nodes 2 c8parent).id = g.id ∧
      (buildElkNode c8nodes 2 c8parent).layoutOptions =
        some ⟨calculateElkTopPadding (g.data.features.getD []), 20, 30, 20⟩ :=
  c8_container_padding c8nodes 2 c8parent (buildElkNode c8nodes 2 c8parent)
    (List.mem_cons_self _ _) (ElkDesc.refl _)
    (List.ne_nil_of_length_pos (by decide))

/-! ## Claim C5: BFS level assignment

The proof follows the classic BFS invariant: the queue holds discovered
entries whose levels are non-decreasing and span at most two consecutive
values, every entry of the levels map is an exact shortest distance, and
every fully processed vertex has all its neighbours discovered.  The
`while` loop of the source is embedded with a fuel argument; the
`budget` component of the invariant shows the fuel `calculateLevels`
passes is never exhausted, so the embedding agrees with the unbounded
loop. -/

theorem lget_lset_self : ∀ (m : List (String × Nat)) (k : String) (v : Nat),
    lget (lset m k v) k = some v
  | [], k, v => by simp [lset, lget]
  | (k0, v0) :: rest, k, v => by
    by_cases h : k0 = k
    · subst h
      simp [lset, lget]
    · simp [lset, lget, h, lget_lset_self rest k v]

theorem lget_lset_other : ∀ (m : List (String × Nat)) (k : String) (v : Nat) (k2 : String),
    k2 ≠ k → lget (lset m k v) k2 = lget m k2
  | [], k, v, k2, h => by
    simp only [lset, lget]
    rw [if_neg (fun hh : k = k2 => h hh.symm)]
  | (k0, v0) :: rest, k, v, k2, h => by
    by_cases h0 : k0 = k
    · simp only [lset, if_pos h0, lget]
      have hne : ¬ k0 = k2 := fun hh => h (hh.symm.trans h0)
      rw [if_neg hne, if_neg hne]
    · simp only [lset, if_neg h0, lget]
      by_cases h2 : k0 = k2
      · rw [if_pos h2, if_pos h2]
      · rw [if_neg h2, if_neg h2, lget_lset_other rest k v k2 h]

theorem lget_none_not_mem : ∀ (m : List (String × Nat)) (v : String),
    lget m v = none → v ∉ m.map (fun p => p.1)
  | [], v, _ => by simp
  | (k0, v0) :: rest, v, h => by
    simp only [lget] at h
    by_cases h0 : k0 = v
    · rw [if_pos h0] at h
      exact absurd h (by simp)
    · rw [if_neg h0] at h
      simp only [List.map, List.mem_cons]
      rintro (h1 | h1)
      · exact h0 h1.symm
      · exact lget_none_not_mem rest v h h1

theorem lget_some_mem : ∀ (m : List (String × Nat)) (v : String) (k : Nat),
    lget m v = some k → (v, k) ∈ m
  | [], v, k, h => by simp [lget] at h
  | (k0, v0) :: rest, v, k, h => by
    simp only [lget] at h
    by_cases h0 : k0 = v
    · rw [if_pos h0] at h
      subst h0
      obtain rfl : v0 = k := by simpa using h
      exact List.mem_cons_self _ _
    · rw [if_neg h0] at h
      exact List.mem_cons_of_mem _ (lget_some_mem rest v k h)

theorem keys_lset_some : ∀ (m : List (String × Nat)) (k : String) (v : Nat),
    (lget m k).isSome → (lset m k v).map (fun p => p.1) = m.map (fun p => p.1)
  | [], k, v, h => by simp [lget] at h
  | (k0, v0) :: rest, k, v, h => by
    by_cases h0 : k0 = k
    · subst h0
      simp [lset]
    · simp only [lget, if_neg h0] at h
      simp [lset, h0, keys_lset_some rest k v h]

theorem keys_lset_none : ∀ (m : List (String × Nat)) (k : String) (v : Nat),
    lget m k = none → (lset m k v).map (fun p => p.1) = m.map (fun p => p.1) ++ [k]
  | [], k, v, _ => by simp [lset]
  | (k0, v0) :: rest, k, v, h => by
    simp only [lget] at h
    by_cases h0 : k0 = k
    · rw [if_pos h0] at h
      exact absurd h (by simp)
    · rw [if_neg h0] at h
      simp [lset, h0, keys_lset_none rest k v h]

theorem lget_of_mem_nodup : ∀ (m : List (String × Nat)),
    (m.map (fun p => p.1)).Nodup → ∀ p ∈ m, lget m p.1 = some p.2
  | [], _, p, hp => by simp at hp
  | q :: rest, hnd, p, hp => by
    rcases List.mem_cons.mp hp with rfl | hp2
    · simp [lget]
    · have hq : q.1 ≠ p.1 := by
        intro heq
        have : p.1 ∈ rest.map (fun r => r.1) := List.mem_map_of_mem _ hp2
        rw [← heq] at this
        exact (List.nodup_cons.mp hnd).1 this
      simp only [lget, if_neg hq]
      exact lget_of_mem_nodup rest (List.nodup_cons.mp hnd).2 p hp2

theorem mem_alGet_foldedge (u w : String) : ∀ (es : List DiagramEdge)
    (m : List (String × List String)),
    w ∈ (alGet (es.foldl (fun g e => alPush g e.source e.target) m) u).getD [] ↔
      w ∈ (alGet m u).getD [] ∨ ∃ e ∈ es, e.source = u ∧ e.target = w
  | [], m => by simp
  | e :: es, m => by
    rw [List.foldl, mem_alGet_foldedge u w es]
    by_cases hsrc : e.source = u
    · rw [hsrc, alGet_alPush_self, Option.getD_some, List.mem_append, List.mem_singleton]
      constructor
      · rintro ((h | h) | ⟨e2, he2, hs2, ht2⟩)
        · exact Or.inl h
        · exact Or.inr ⟨e, List.mem_cons_self _ _, hsrc, h.symm⟩
        · exact Or.inr ⟨e2, List.mem_cons_of_mem _ he2, hs2, ht2⟩
      · rintro (h | ⟨e2, he2, hs2, ht2⟩)
        · exact Or.inl (Or.inl h)
        · rcases List.mem_cons.mp he2 with rfl | he3
          · exact Or.inl (Or.inr ht2.symm)
          · exact Or.inr ⟨e2, he3, hs2, ht2⟩
    · rw [alGet_alPush_other _ _ _ _ (fun hh : u = e.source => hsrc hh.symm)]
      constructor
      · rintro (h | ⟨e2, he2, hs2, ht2⟩)
        · exact Or.inl h
        · exact Or.inr ⟨e2, List.mem_cons_of_mem _ he2, hs2, ht2⟩
      · rintro (h | ⟨e2, he2, hs2, ht2⟩)
        · exact Or.inl h
        · rcases List.mem_cons.mp he2 with rfl | he3
          · exact absurd hs2 hsrc
          · exact Or.inr ⟨e2, he3, hs2, ht2⟩

theorem mem_buildGraph (edges : List DiagramEdge) (u w : String) :
    w ∈ adjOf (buildGraph edges) u ↔ stepE edges u w := by
  rw [adjOf, buildGraph, mem_alGet_foldedge]
  simp [alGet, stepE]

theorem distLe_mono (roots : List String) (edges : List DiagramEdge) :
    ∀ (j n : Nat) (v : String), n ≤ j → distLe roots edges n v → distLe roots edges j v
  | 0, n, v, hle, hd => by
    obtain rfl : n = 0 := Nat.le_zero.mp hle
    exact hd
  | j + 1, n, v, hle, hd => by
    by_cases h : n = j + 1
    · subst h
      exact hd
    · have : n ≤ j := by omega
      exact Or.inl (distLe_mono roots edges j n v this hd)

theorem reach_in_lv (roots : List String) (edges : List DiagramEdge)
    (lv : List (String × Nat)) (h : Nat)
    (hexact : ∀ v k, lget lv v = some k → minDistIs roots edges v k)
    (hroots : ∀ r ∈ roots, (lget lv r).isSome)
    (hclosed : ∀ u k, lget lv u = some k → k < h →
      ∀ w ∈ adjOf (buildGraph edges) u, (lget lv w).isSome) :
    ∀ j, j ≤ h → ∀ w, distLe roots edges j w → (lget lv w).isSome := by
  intro j
  induction j with
  | zero =>
    intro _ w hw
    exact hroots w hw
  | succ n ih =>
    intro hle w hw
    rcases hw with hw | ⟨u, hu, hstep⟩
    · exact ih (by omega) w hw
    · have hus : (lget lv u).isSome := ih (by omega) u hu
      obtain ⟨k, hk⟩ := Option.isSome_iff_exists.mp hus
      have hmin := hexact u k hk
      have hkn : k ≤ n := hmin.2 n hu
      exact hclosed u k hk (by omega) w ((mem_buildGraph edges u w).mpr hstep)

def missingCount (U : List String) (lv : List (String × Nat)) : Nat :=
  (U.filter (fun t => (lget lv t).isNone)).length

theorem filter_len_mono {α : Type} (p q : α → Bool) (h : ∀ a, p a = true → q a = true) :
    ∀ l : List α, (l.filter p).length ≤ (l.filter q).length
  | [] => Nat.le_refl 0
  | a :: l => by
    simp only [List.filter_cons]
    by_cases hp : p a = true
    · rw [if_pos hp, if_pos (h a hp)]
      simpa using filter_len_mono p q h l
    · rw [if_neg hp]
      split
      · exact Nat.le_trans (filter_len_mono p q h l) (by simp)
      · exact filter_len_mono p q h l

theorem filter_len_strict {α : Type} (p q : α → Bool) (h : ∀ a, p a = true → q a = true)
    (w : α) (hqw : q w = true) (hpw : p w = false) :
    ∀ l : List α, w ∈ l → (l.filter p).length + 1 ≤ (l.filter q).length
  | a :: l, hm => by
    simp only [List.filter_cons]
    rcases List.mem_cons.mp hm with rfl | hm2
    · rw [if_neg (by simp [hpw]), if_pos hqw]
      simpa using Nat.succ_le_succ (filter_len_mono p q h l)
    · by_cases hp : p a = true
      · rw [if_pos hp, if_pos (h a hp)]
        have := filter_len_strict p q h w hqw hpw l hm2
        simpa using Nat.succ_le_succ this
      · rw [if_neg hp]
        split
        · exact Nat.le_trans (filter_len_strict p q h w hqw hpw l hm2) (by simp)
        · exact filter_len_strict p q h w hqw hpw l hm2

theorem missingCount_lset (U : List String) (lv : List (String × Nat)) (w : String)
    (val : Nat) (hwU : w ∈ U) (hwm : lget lv w = none) :
    missingCount U (lset lv w val) + 1 ≤ missingCount U lv := by
  unfold missingCount
  refine filter_len_strict _ _ ?_ w (by simp [hwm]) (by simp [lget_lset_self]) U hwU
  intro t ht
  by_cases hwt : t = w
  · subst hwt
    rw [lget_lset_self] at ht
    simp at ht
  · rwa [lget_lset_other lv w val t hwt] at ht

theorem lget_isSome_lset (lv : List (String × Nat)) (w : String) (val : Nat) (x : String)
    (hx : (lget lv x).isSome) : (lget (lset lv w val) x).isSome := by
  by_cases hxw : x = w
  · subst hxw
    rw [lget_lset_self]
    simp
  · rwa [lget_lset_other lv w val x hxw]

/-- The invariant maintained while the BFS processes the neighbour list of
a popped entry `(v, h)`: the queue holds only discovered entries with
levels in `[h, h+1]` in non-decreasing order, the levels map holds exactly
the true shortest distances, and every fully processed vertex has all its
neighbours discovered. -/
structure BfsMid (roots : List String) (edges : List DiagramEdge) (U : List String)
    (v : String) (h fuel : Nat)
    (q : List (String × Nat)) (lv : List (String × Nat)) : Prop where
  budget : q.length + missingCount U lv ≤ fuel
  entries : ∀ p ∈ q, lget lv p.1 = some p.2
  sorted : List.Pairwise (fun a b : String × Nat => a.2 ≤ b.2) q
  bounds : ∀ p ∈ q, h ≤ p.2 ∧ p.2 ≤ h + 1
  vIn : lget lv v = some h
  keysNodup : (lv.map (fun p => p.1)).Nodup
  exactLv : ∀ v2 k, lget lv v2 = some k → minDistIs roots edges v2 k
  closedExceptV : ∀ u k, lget lv u = some k → (∀ p ∈ q, p.1 ≠ u) → u ≠ v →
    ∀ w ∈ adjOf (buildGraph edges) u, (lget lv w).isSome
  rootsIn : ∀ r ∈ roots, (lget lv r).isSome

theorem bfsVisit_spec (roots : List String) (edges : List DiagramEdge) (U : List String)
    (v : String) (h fuel : Nat) :
    ∀ (ns : List String) (q lv : List (String × Nat)),
    BfsMid roots edges U v h fuel q lv →
    (∀ w ∈ ns, stepE edges v w) →
    (∀ w ∈ ns, w ∈ U) →
    BfsMid roots edges U v h fuel (bfsVisit h ns (q, lv)).1 (bfsVisit h ns (q, lv)).2 ∧
    (∀ w ∈ ns, (lget (bfsVisit h ns (q, lv)).2 w).isSome) ∧
    (∀ v2 k, lget lv v2 = some k → lget (bfsVisit h ns (q, lv)).2 v2 = some k)
  | [], q, lv, hmid, _, _ => ⟨hmid, by simp, fun v2 k hk => hk⟩
  | w :: ns, q, lv, hmid, hstep, hU => by
    have hvis : bfsVisit h (w :: ns) (q, lv) = bfsVisit h ns
        (if (lget lv w).isSome then (q, lv)
         else (q ++ [(w, h + 1)], lset lv w (h + 1))) := rfl
    rw [hvis]
    by_cases hw : (lget lv w).isSome
    · rw [if_pos hw]
      obtain ⟨hmid2, hrest, hmono⟩ := bfsVisit_spec roots edges U v h fuel ns q lv hmid
        (fun w2 hw2 => hstep w2 (List.mem_cons_of_mem _ hw2))
        (fun w2 hw2 => hU w2 (List.mem_cons_of_mem _ hw2))
      refine ⟨hmid2, ?_, hmono⟩
      intro w2 hw2
      rcases List.mem_cons.mp hw2 with rfl | hw3
      · obtain ⟨k, hk⟩ := Option.isSome_iff_exists.mp hw
        rw [hmono w2 k hk]
        simp
      · exact hrest w2 hw3
    · rw [if_neg hw]
      have hwnone : lget lv w = none := by
        rwa [Option.not_isSome_iff_eq_none] at hw
      have hwq : ∀ p ∈ q, p.1 ≠ w := by
        intro p hp heq
        have := hmid.entries p hp
        rw [heq, hwnone] at this
        exact Option.noConfusion this
      have hclosedh : ∀ u k2, lget lv u = some k2 → k2 < h →
          ∀ w2 ∈ adjOf (buildGraph edges) u, (lget lv w2).isSome := by
        intro u k2 hk2 hlt w2 hw2
        have huv : u ≠ v := by
          intro heq
          rw [heq, hmid.vIn] at hk2
          obtain rfl : h = k2 := by simpa using hk2
          omega
        have hnq : ∀ p ∈ q, p.1 ≠ u := by
          intro p hp heq
          have he := hmid.entries p hp
          rw [heq, hk2] at he
          obtain rfl : k2 = p.2 := by simpa using he
          have := (hmid.bounds p hp).1
          omega
        exact hmid.closedExceptV u k2 hk2 hnq huv w2 hw2
      have hnew : BfsMid roots edges U v h fuel (q ++ [(w, h + 1)]) (lset lv w (h + 1)) := by
        refine ⟨?_, ?_, ?_, ?_, ?_, ?_, ?_, ?_, ?_⟩
        · have hdec := missingCount_lset U lv w (h + 1) (hU w (List.mem_cons_self _ _)) hwnone
          have := hmid.budget
          simp only [List.length_append, List.length_singleton]
          omega
        · intro p hp
          rcases List.mem_append.mp hp with hp1 | hp1
          · have hne : p.1 ≠ w := hwq p hp1
            rw [lget_lset_other lv w (h + 1) p.1 hne]
            exact hmid.entries p hp1
          · obtain rfl : p = (w, h + 1) := by simpa using hp1
            exact lget_lset_self lv w (h + 1)
        · rw [List.pairwise_append]
          refine ⟨hmid.sorted, by simp, ?_⟩
          intro a ha b hb
          obtain rfl : b = (w, h + 1) := by simpa using hb
          exact (hmid.bounds a ha).2
        · intro p hp
          rcases List.mem_append.mp hp with hp1 | hp1
          · exact hmid.bounds p hp1
          · obtain rfl : p = (w, h + 1) := by simpa using hp1
            omega
        · have hvw : v ≠ w := by
            intro heq
            rw [← heq, hmid.vIn] at hwnone
            exact Option.noConfusion hwnone
          rw [lget_lset_other lv w (h + 1) v hvw]
          exact hmid.vIn
        · rw [keys_lset_none lv w (h + 1) hwnone, List.nodup_append]
          refine ⟨hmid.keysNodup, by simp, ?_⟩
          intro a ha hb
          obtain rfl : a = w := by simpa using hb
          exact lget_none_not_mem lv a hwnone ha
        · intro v2 k hk
          by_cases hv2 : v2 = w
          · subst hv2
            rw [lget_lset_self] at hk
            obtain rfl : h + 1 = k := by simpa using hk
            constructor
            · exact Or.inr ⟨v, (hmid.exactLv v h hmid.vIn).1,
                hstep v2 (List.mem_cons_self _ _)⟩
            · intro j hj
              by_contra hcon
              have hjh : j ≤ h := by omega
              have := reach_in_lv roots edges lv h hmid.exactLv hmid.rootsIn hclosedh
                j hjh v2 hj
              rw [hwnone] at this
              exact Option.noConfusion (Option.isSome_iff_exists.mp this).choose_spec
          · rw [lget_lset_other lv w (h + 1) v2 hv2] at hk
            exact hmid.exactLv v2 k hk
        · intro u k hk hnq huv w2 hw2
          have huw : u ≠ w := by
            intro heq
            exact hnq (w, h + 1) (by simp) (by rw [heq])
          rw [lget_lset_other lv w (h + 1) u huw] at hk
          have hnq2 : ∀ p ∈ q, p.1 ≠ u := fun p hp =>
            hnq p (List.mem_append.mpr (Or.inl hp))
          exact lget_isSome_lset lv w (h + 1) w2
            (hmid.closedExceptV u k hk hnq2 huv w2 hw2)
        · intro r hr
          exact lget_isSome_lset lv w (h + 1) r (hmid.rootsIn r hr)
      obtain ⟨hmid2, hrest, hmono⟩ := bfsVisit_spec roots edges U v h fuel ns
        (q ++ [(w, h + 1)]) (lset lv w (h + 1)) hnew
        (fun w2 hw2 => hstep w2 (List.mem_cons_of_mem _ hw2))
        (fun w2 hw2 => hU w2 (List.mem_cons_of_mem _ hw2))
      refine ⟨hmid2, ?_, ?_⟩
      · intro w2 hw2
        rcases List.mem_cons.mp hw2 with rfl | hw3
        · rw [hmono w2 (h + 1) (lget_lset_self lv w2 (h + 1))]
          simp
        · exact hrest w2 hw3
      · intro v2 k hk
        have hv2w : v2 ≠ w := by
          intro heq
          rw [heq, hwnone] at hk
          exact Option.noConfusion hk
        exact hmono v2 k (by rw [lget_lset_other lv w (h + 1) v2 hv2w]; exact hk)

/-- The invariant of the `while` loop of `calculateLevels` between
iterations. -/
structure BfsLoopInv (roots : List String) (edges : List DiagramEdge) (U : List String)
    (fuel : Nat) (queue : List (String × Nat)) (lv : List (String × Nat)) : Prop where
  budget : queue.length + missingCount U lv ≤ fuel
  entries : ∀ p ∈ queue, lget lv p.1 = some p.2
  sorted : List.Pairwise (fun a b : String × Nat => a.2 ≤ b.2) queue
  headBound : ∀ q0 ∈ queue.head?, ∀ p ∈ queue, p.2 ≤ q0.2 + 1
  keysNodup : (lv.map (fun p => p.1)).Nodup
  exactLv : ∀ v k, lget lv v = some k → minDistIs roots edges v k
  closedL : ∀ u k, lget lv u = some k → (∀ p ∈ queue, p.1 ≠ u) →
    ∀ w ∈ adjOf (buildGraph edges) u, (lget lv w).isSome
  rootsIn : ∀ r ∈ roots, (lget lv r).isSome

/-- What holds of the levels map when the BFS loop finishes: every entry
is an exact shortest distance, the discovered set is closed under
outgoing edges, every root is discovered, and keys are unique. -/
def BfsFinal (roots : List String) (edges : List DiagramEdge)
    (lv : List (String × Nat)) : Prop :=
  (∀ v k, lget lv v = some k → minDistIs roots edges v k) ∧
  (∀ u k, lget lv u = some k → ∀ w ∈ adjOf (buildGraph edges) u, (lget lv w).isSome) ∧
  (∀ r ∈ roots, (lget lv r).isSome) ∧
  (lv.map (fun p => p.1)).Nodup

theorem bfsLoop_final (roots : List String) (edges : List DiagramEdge) (U : List String)
    (hU : ∀ u w, w ∈ adjOf (buildGraph edges) u → w ∈ U) :
    ∀ (fuel : Nat) (queue lv : List (String × Nat)),
    BfsLoopInv roots edges U fuel queue lv →
    BfsFinal roots edges (bfsLoop (buildGraph edges) fuel queue lv)
  | 0, queue, lv, inv => by
    have hq : queue = [] := by
      have := inv.budget
      cases queue with
      | nil => rfl
      | cons p rest => simp at this
    subst hq
    exact ⟨inv.exactLv, fun u k hk => inv.closedL u k hk (by simp), inv.rootsIn,
      inv.keysNodup⟩
  | fuel + 1, [], lv, inv =>
    ⟨inv.exactLv, fun u k hk => inv.closedL u k hk (by simp), inv.rootsIn, inv.keysNodup⟩
  | fuel + 1, (v, h) :: rest, lv, inv => by
    have hv : lget lv v = some h := inv.entries (v, h) (List.mem_cons_self _ _)
    have hmid : BfsMid roots edges U v h fuel rest lv := by
      refine ⟨?_, ?_, ?_, ?_, hv, inv.keysNodup, inv.exactLv, ?_, inv.rootsIn⟩
      · have := inv.budget
        simp only [List.length_cons] at this
        omega
      · intro p hp
        exact inv.entries p (List.mem_cons_of_mem _ hp)
      · exact (List.pairwise_cons.mp inv.sorted).2
      · intro p hp
        refine ⟨(List.pairwise_cons.mp inv.sorted).1 p hp, ?_⟩
        exact inv.headBound (v, h) (by simp) p (List.mem_cons_of_mem _ hp)
      · intro u k hk hnq huv w hw
        refine inv.closedL u k hk ?_ w hw
        intro p hp
        rcases List.mem_cons.mp hp with rfl | hp2
        · exact fun heq => huv heq.symm
        · exact hnq p hp2
    obtain ⟨hmid2, hadj, hmono⟩ := bfsVisit_spec roots edges U v h fuel
      (adjOf (buildGraph edges) v) rest lv hmid
      (fun w hw => (mem_buildGraph edges v w).mp hw)
      (fun w hw => hU v w hw)
    have hinv2 : BfsLoopInv roots edges U fuel
        (bfsVisit h (adjOf (buildGraph edges) v) (rest, lv)).1
        (bfsVisit h (adjOf (buildGraph edges) v) (rest, lv)).2 := by
      refine ⟨hmid2.budget, hmid2.entries, hmid2.sorted, ?_, hmid2.keysNodup,
        hmid2.exactLv, ?_, hmid2.rootsIn⟩
      · intro q0 hq0 p hp
        have hq0m := List.mem_of_mem_head? hq0
        have h1 := (hmid2.bounds q0 hq0m).1
        have h2 := (hmid2.bounds p hp).2
        omega
      · intro u k hk hnq w hw
        by_cases huv : u = v
        · subst huv
          exact hadj w hw
        · exact hmid2.closedExceptV u k hk hnq huv w hw
    exact bfsLoop_final roots edges U hU fuel _ _ hinv2

theorem bfsFinal_complete (roots : List String) (edges : List DiagramEdge)
    (lv : List (String × Nat)) (hf : BfsFinal roots edges lv) :
    ∀ (n : Nat) (v : String), distLe roots edges n v → (lget lv v).isSome := by
  intro n
  induction n with
  | zero =>
    intro v hv
    exact hf.2.2.1 v hv
  | succ n ih =>
    intro v hv
    rcases hv with hv | ⟨u, hu, hstep⟩
    · exact ih v hv
    · have hus := ih u hu
      obtain ⟨k, hk⟩ := Option.isSome_iff_exists.mp hus
      exact hf.2.1 u k hk v ((mem_buildGraph edges u v).mpr hstep)

theorem lget_init (starts : List String) : ∀ (m : List (String × Nat)) (v : String),
    lget (starts.foldl (fun m2 id => lset m2 id 0) m) v =
      if v ∈ starts then some 0 else lget m v
  | m, v => by
    induction starts generalizing m with
    | nil => simp
    | cons s rest ih =>
      rw [List.foldl, ih (lset m s 0)]
      by_cases hv : v ∈ rest
      · rw [if_pos hv, if_pos (List.mem_cons_of_mem _ hv)]
      · rw [if_neg hv]
        by_cases hvs : v = s
        · subst hvs
          rw [lget_lset_self, if_pos (List.mem_cons_self _ _)]
        · rw [lget_lset_other m s 0 v hvs, if_neg (by simp [hvs, hv])]

theorem keys_init_nodup : ∀ (starts : List String) (m : List (String × Nat)),
    (m.map (fun p => p.1)).Nodup →
    (((starts.foldl (fun m2 id => lset m2 id 0) m)).map (fun p => p.1)).Nodup
  | [], m, h => h
  | s :: rest, m, h => by
    rw [List.foldl]
    apply keys_init_nodup rest
    by_cases hs : (lget m s).isSome
    · rw [keys_lset_some m s 0 hs]
      exact h
    · have hnone := Option.not_isSome_iff_eq_none.mp hs
      rw [keys_lset_none m s 0 hnone, List.nodup_append]
      refine ⟨h, by simp, ?_⟩
      intro a ha hb
      obtain rfl : a = s := by simpa using hb
      exact lget_none_not_mem m a hnone ha

theorem pairwise_queue_init : ∀ (starts : List String),
    List.Pairwise (fun a b : String × Nat => a.2 ≤ b.2) (starts.map (fun id => (id, 0)))
  | [] => List.Pairwise.nil
  | s :: rest => by
    refine List.Pairwise.cons ?_ (pairwise_queue_init rest)
    intro b hb
    obtain ⟨id, _, rfl⟩ := List.mem_map.mp hb
    exact Nat.le_refl 0

theorem lget_fill (nodes : List DiagramNode) (M : Nat) :
    ∀ (m : List (String × Nat)) (v : String),
    lget (nodes.foldl (fun m2 n => if (lget m2 n.id).isSome then m2 else lset m2 n.id M) m) v =
      match lget m v with
      | some k => some k
      | none => if v ∈ nodes.map (fun n => n.id) then some M else none
  | m, v => by
    induction nodes generalizing m with
    | nil =>
      simp only [List.foldl, List.map_nil, List.not_mem_nil, if_false]
      cases lget m v <;> rfl
    | cons n rest ih =>
      rw [List.foldl, ih]
      by_cases hn : (lget m n.id).isSome
      · rw [if_pos hn]
        cases hmv : lget m v with
        | some k => rfl
        | none =>
          have hvn : v ≠ n.id := by
            intro heq
            rw [← heq, hmv] at hn
            simp at hn
          simp [hvn]
      · rw [if_neg hn]
        have hnone := Option.not_isSome_iff_eq_none.mp hn
        by_cases hvn : v = n.id
        · subst hvn
          rw [lget_lset_self, hnone]
          simp
        · rw [lget_lset_other m n.id M v hvn]
          cases hmv : lget m v with
          | some k => rfl
          | none => simp [hvn]

theorem foldl_max_init_le : ∀ (l : List Nat) (a : Nat), a ≤ l.foldl max a
  | [], a => Nat.le_refl a
  | x :: rest, a =>
    Nat.le_trans (Nat.le_max_left a x) (foldl_max_init_le rest (max a x))

theorem foldl_max_ge_mem : ∀ (l : List Nat) (a x : Nat), x ∈ l → x ≤ l.foldl max a
  | y :: rest, a, x, hm => by
    rcases List.mem_cons.mp hm with rfl | hm2
    · exact Nat.le_trans (Nat.le_max_right a x) (foldl_max_init_le rest (max a x))
    · exact foldl_max_ge_mem rest (max a y) x hm2

theorem foldl_max_cases : ∀ (l : List Nat) (a : Nat), l.foldl max a = a ∨ l.foldl max a ∈ l
  | [], a => Or.inl rfl
  | x :: rest, a => by
    rcases foldl_max_cases rest (max a x) with h | h
    · rw [List.foldl, h]
      rcases max_choice a x with hm | hm
      · exact Or.inl hm
      · exact Or.inr (by rw [hm]; exact List.mem_cons_self _ _)
    · exact Or.inr (List.mem_cons_of_mem _ h)

/-- The BFS run by `calculateLevels` (default roots, its actual fuel)
ends in a levels map of exact shortest distances, closed under edges and
containing every root. -/
theorem calculateLevels_bfsFinal (nodes : List DiagramNode) (edges : List DiagramEdge) :
    BfsFinal (defaultRoots nodes edges) edges
      (bfsLoop (buildGraph edges) ((defaultRoots nodes edges).length + edges.length + 1)
        ((defaultRoots nodes edges).map (fun id => (id, 0)))
        ((defaultRoots nodes edges).foldl (fun m id => lset m id 0) [])) := by
  refine bfsLoop_final (defaultRoots nodes edges) edges (edges.map (fun e => e.target))
    ?_ _ _ _ ?_
  · intro u w hw
    obtain ⟨e, he, hs, ht⟩ := (mem_buildGraph edges u w).mp hw
    exact List.mem_map.mpr ⟨e, he, ht⟩
  · refine ⟨?_, ?_, pairwise_queue_init _, ?_, ?_, ?_, ?_, ?_⟩
    · rw [List.length_map]
      have h1 : missingCount (edges.map (fun e => e.target))
          ((defaultRoots nodes edges).foldl (fun m id => lset m id 0) []) ≤
          (edges.map (fun e => e.target)).length :=
        List.length_filter_le _ _
      rw [List.length_map] at h1
      omega
    · intro p hp
      obtain ⟨id, hid, rfl⟩ := List.mem_map.mp hp
      rw [lget_init, if_pos hid]
    · intro q0 _ p hp
      obtain ⟨id, _, rfl⟩ := List.mem_map.mp hp
      simp
    · exact keys_init_nodup _ [] (by simp)
    · intro v k hk
      rw [lget_init] at hk
      by_cases hv : v ∈ defaultRoots nodes edges
      · rw [if_pos hv] at hk
        obtain rfl : (0 : Nat) = k := by simpa using hk
        exact ⟨hv, fun j _ => Nat.zero_le j⟩
      · rw [if_neg hv] at hk
        simp [lget] at hk
    · intro u k hk hnq w hw
      rw [lget_init] at hk
      by_cases hu : u ∈ defaultRoots nodes edges
      · exact absurd rfl (hnq (u, 0) (List.mem_map.mpr ⟨u, hu, rfl⟩))
      · rw [if_neg hu] at hk
        simp [lget] at hk
    · intro r hr
      rw [lget_init, if_pos hr]
      simp

/-- **C5**: with no explicit root set, `calculateLevels` assigns level 0
to every node with no incoming edge (so an isolated node is a root at
level 0); assigns every node at shortest hop distance `k` from the root
set exactly level `k`; and assigns every node unreachable from the root
set the single maximum level observed among all assigned vertices (0
when nothing else was assigned). -/
theorem c5_levels (nodes : List DiagramNode) (edges : List DiagramEdge) :
    (∀ n ∈ nodes, n.id ∉ edges.map (fun e => e.target) →
      lget (calculateLevels nodes edges none) n.id = some 0) ∧
    (∀ n ∈ nodes, ∀ k, minDistIs (defaultRoots nodes edges) edges n.id k →
      lget (calculateLevels nodes edges none) n.id = some k) ∧
    (∀ n ∈ nodes, (∀ j, ¬ distLe (defaultRoots nodes edges) edges j n.id) →
      ∃ M, lget (calculateLevels nodes edges none) n.id = some M ∧
        (∀ v k, minDistIs (defaultRoots nodes edges) edges v k → k ≤ M) ∧
        (M = 0 ∨ ∃ v, minDistIs (defaultRoots nodes edges) edges v M)) := by
  have hfin := calculateLevels_bfsFinal nodes edges
  set roots := defaultRoots nodes edges with hroots
  set bfs := bfsLoop (buildGraph edges) (roots.length + edges.length + 1)
    (roots.map (fun id => (id, 0))) (roots.foldl (fun m id => lset m id 0) []) with hbfs
  set M0 := (bfs.map (fun p => p.2)).foldl max 0 with hM0
  have hcalc : calculateLevels nodes edges none =
      nodes.foldl (fun m n => if (lget m n.id).isSome then m else lset m n.id M0) bfs := rfl
  refine ⟨?_, ?_, ?_⟩
  · intro n hn hni
    have hnr : n.id ∈ roots := List.mem_map.mpr ⟨n, List.mem_filter.mpr ⟨hn, by
      simpa using hni⟩, rfl⟩
    obtain ⟨k, hk⟩ := Option.isSome_iff_exists.mp (hfin.2.2.1 n.id hnr)
    have hmd := hfin.1 n.id k hk
    obtain rfl : k = 0 := Nat.le_zero.mp (hmd.2 0 hnr)
    rw [hcalc, lget_fill, hk]
  · intro n hn k hmind
    obtain ⟨k2, hk2⟩ := Option.isSome_iff_exists.mp
      (bfsFinal_complete roots edges bfs hfin k n.id hmind.1)
    have hmd2 := hfin.1 n.id k2 hk2
    obtain rfl : k = k2 := Nat.le_antisymm (hmind.2 k2 hmd2.1) (hmd2.2 k hmind.1)
    rw [hcalc, lget_fill, hk2]
  · intro n hn hun
    have hnone : lget bfs n.id = none := by
      cases hbn : lget bfs n.id with
      | none => rfl
      | some k => exact absurd (hfin.1 n.id k hbn).1 (hun k)
    refine ⟨M0, ?_, ?_, ?_⟩
    · rw [hcalc, lget_fill, hnone]
      rw [if_pos (List.mem_map.mpr ⟨n, hn, rfl⟩)]
    · intro v k hb
      obtain ⟨k2, hk2⟩ := Option.isSome_iff_exists.mp
        (bfsFinal_complete roots edges bfs hfin k v hb.1)
      have hmd2 := hfin.1 v k2 hk2
      obtain rfl : k = k2 := Nat.le_antisymm (hb.2 k2 hmd2.1) (hmd2.2 k hb.1)
      exact foldl_max_ge_mem (bfs.map (fun p => p.2)) 0 k
        (List.mem_map.mpr ⟨(v, k), lget_some_mem bfs v k hk2, rfl⟩)
    · rcases foldl_max_cases (bfs.map (fun p => p.2)) 0 with h0 | hmem
      · exact Or.inl h0
      · obtain ⟨p, hp, hpm⟩ := List.mem_map.mp hmem
        refine Or.inr ⟨p.1, ?_⟩
        have hlp := lget_of_mem_nodup bfs hfin.2.2.2 p hp
        rw [hpm] at hlp
        exact hfin.1 p.1 M0 hlp

/-- **C5** (witness): the theorem applied to an isolated single node,
which is a root at level 0. -/
theorem c5_levels_witness :
    lget (calculateLevels [dnode "A"] [] none) "A" = some 0 :=
  (c5_levels [dnode "A"] []).1 (dnode "A") (List.mem_cons_self _ _) (by simp)
